import Mathlib

/-!
Verification of the Marées France integration core: a shallow embedding of the
tide-state parser (`coordinator._parse_tide_data`), the retrying fetcher and the
fetch-and-store helpers (`api_helpers`, `__init__`), the coordinator's cache
validate-and-repair routine, and the per-dataset prefetch jobs, together with
theorems settling the specification claims about them.

Modelling conventions used throughout:
- date strings `YYYY-MM-DD` are encoded as `Nat` day indices where only their
  linear order matters (lexicographic order of the strings agrees with it),
  and as explicit `Date` (year, month, day) records where year/month structure
  matters (coefficient pruning);
- UTC instants are `Nat` seconds; the pytz Europe/Paris localization followed by
  conversion to UTC is modelled as the monotone injective map
  `day, minutes ↦ day*86400 + minutes*60` (the claims under study never depend
  on the actual UTC offset);
- Python dicts are association lists (`alookup`/`aset` mirror `.get` and key
  assignment, preserving insertion order);
- numeric strings keep their `String` representation; `float(...)` conversion of
  a height string is modelled as returning the string verbatim (floating point
  is outside the embedding, and no claim depends on it).
-/

namespace MareesFrance

/-- `TIDE_HIGH` from `const.py`. -/
def TIDE_HIGH : String := "tide.high"

/-- `TIDE_LOW` from `const.py`. -/
def TIDE_LOW : String := "tide.low"

/-- `SPRING_TIDE_THRESHOLD` from `const.py`. -/
def SPRING_TIDE_THRESHOLD : Nat := 100

/-- `NEAP_TIDE_THRESHOLD` from `const.py`. -/
def NEAP_TIDE_THRESHOLD : Nat := 40

/-- Association-list counterpart of Python `dict.get`: the value of the first
matching key. -/
def alookup {κ β : Type} [DecidableEq κ] : List (κ × β) → κ → Option β
  | [], _ => none
  | kv :: rest, k => if kv.1 = k then some kv.2 else alookup rest k

/-- Association-list counterpart of Python dict assignment `m[k] = v`:
overwrite in place, or append when the key is new (insertion order). -/
def aset {κ β : Type} [DecidableEq κ] : List (κ × β) → κ → β → List (κ × β)
  | [], k, v => [(k, v)]
  | kv :: rest, k, v => if kv.1 = k then (k, v) :: rest else kv :: aset rest k v

/-- Association-list counterpart of Python `del m[k]` (for a possibly absent
key: removes every binding of `k`; dict keys are unique so at most one). -/
def aerase {κ β : Type} [DecidableEq κ] : List (κ × β) → κ → List (κ × β)
  | [], _ => []
  | kv :: rest, k => if kv.1 = k then aerase rest k else kv :: aerase rest k

/-! ## Tide-state parser data model (`coordinator._parse_tide_data`) -/

/-- One flattened tide event (`flat_entry` in `_parse_tide_data`): times are
UTC seconds, `dateLocal` the local calendar day index, heights and coefficients
kept as strings as in the source. -/
structure FlatTide where
  ttype : String
  timeLocal : Nat
  height : String
  coefficient : Option String
  datetimeUtc : Nat
  dateLocal : Nat
  translatedType : String
  deriving Repr, DecidableEq

/-- The time slot of a raw tide entry: the `"--:--"` placeholder, an
unparsable string (`strptime` raises `ValueError`), or a parsed `HH:MM`
wall-clock time in minutes. -/
inductive RawTime
  | placeholder
  | unparsable
  | hm (mins : Nat)
  deriving Repr, DecidableEq

/-- A height or coefficient slot of a raw tide entry: the `"---"` placeholder
or an actual string. -/
inductive RawStr
  | placeholder
  | val (s : String)
  deriving Repr, DecidableEq

/-- One element of a day's raw tide list: either a well-formed 4-tuple
`(tide_type, time_str, height_str, coeff_str)` or anything else
(not a list/tuple of length 4, skipped with a warning). -/
inductive RawTideInfo
  | entry (ttype : String) (time : RawTime) (height : RawStr) (coeff : RawStr)
  | malformed
  deriving Repr, DecidableEq

/-- Europe/Paris wall clock to UTC instant, modelled as a monotone injective
map to seconds (see the module docstring). -/
def parisToUtc (day : Nat) (mins : Nat) : Nat := day * 86400 + mins * 60

/-- The value stored in `translated_type`: the raw constant for known tide
types, `"Unknown"` otherwise. -/
def translatedTypeOf (ttype : String) : String :=
  if ttype = TIDE_HIGH then TIDE_HIGH
  else if ttype = TIDE_LOW then TIDE_LOW
  else "Unknown"

/-- Flattening of one day's raw tide entries: skip malformed entries,
placeholder times/heights, and unparsable datetimes; a `"---"` coefficient
becomes `none` (marked for later lookup). -/
def flattenDay (day : Nat) (entries : List RawTideInfo) : List FlatTide :=
  entries.filterMap (fun ti =>
    match ti with
    | .malformed => none
    | .entry ttype time height coeff =>
      match time, height with
      | .placeholder, _ => none
      | _, .placeholder => none
      | .unparsable, _ => none
      | .hm mins, .val h =>
        some { ttype := ttype, timeLocal := mins, height := h,
               coefficient := match coeff with
                 | .placeholder => none
                 | .val c => some c,
               datetimeUtc := parisToUtc day mins, dateLocal := day,
               translatedType := translatedTypeOf ttype })

/-- Flattening of all supplied days (`all_tides_flat` before sorting). -/
def flattenTides (tidesRaw : List (Nat × List RawTideInfo)) : List FlatTide :=
  (tidesRaw.map (fun p => flattenDay p.1 p.2)).flatten

/-- The sort order of `all_tides_flat.sort(key=datetime_utc)`. -/
def tideLE (a b : FlatTide) : Prop := a.datetimeUtc ≤ b.datetimeUtc

instance : DecidableRel tideLE := fun a b => Nat.decLe a.datetimeUtc b.datetimeUtc

instance : IsTotal FlatTide tideLE := ⟨fun a b => Nat.le_total a.datetimeUtc b.datetimeUtc⟩

instance : IsTrans FlatTide tideLE := ⟨fun _ _ _ => Nat.le_trans⟩

/-- `all_tides_flat.sort(key=lambda x: x["datetime_utc"])`. -/
def sortTides (l : List FlatTide) : List FlatTide := List.insertionSort tideLE l

/-- Python `c.isdigit()` on a coefficient string (non-empty, all digits). -/
def isDigitString (s : String) : Bool := !s.toList.isEmpty && s.toList.all Char.isDigit

/-- Python `int(c)` on an all-digit string. -/
def digitsToNat (s : String) : Nat := s.toList.foldl (fun n c => n * 10 + (c.toNat - 48)) 0

/-- `[int(c) for c in day_coeffs if isinstance(c, str) and c.isdigit()]`. -/
def validCoeffsInt (cs : List String) : List Nat :=
  (cs.filter isDigitString).map digitsToNat

/-- `max(valid_coeffs_int)` when the filtered list is non-empty. -/
def dayMaxCoeff (cs : List String) : Option Nat :=
  match validCoeffsInt cs with
  | [] => none
  | x :: xs => some (xs.foldl max x)

/-- Coefficient filling for one flattened event: an explicit coefficient is
kept; a missing one is looked up as the maximum valid coefficient of the
event's local date (`str(max_coeff)`), staying absent when none exists. -/
def fillCoeffOne (coeffRaw : List (Nat × List String)) (t : FlatTide) : FlatTide :=
  match t.coefficient with
  | some _ => t
  | none =>
    match alookup coeffRaw t.dateLocal with
    | none => { t with coefficient := none }
    | some dayCoeffs =>
      if dayCoeffs.isEmpty then { t with coefficient := none }
      else
        match dayMaxCoeff dayCoeffs with
        | some m => { t with coefficient := some (toString m) }
        | none => { t with coefficient := none }

/-- The coefficient-filling pass over the flattened list. -/
def fillCoefficients (coeffRaw : List (Nat × List String)) (tides : List FlatTide) :
    List FlatTide :=
  tides.map (fillCoeffOne coeffRaw)

/-- `now_tide_index`: index of the first event with UTC instant strictly after
`now_utc`, `none` when there is none (`-1` in the source). -/
def nowTideIndex (events : List FlatTide) (nowUtc : Nat) : Option Nat :=
  match events with
  | [] => none
  | e :: rest =>
    if nowUtc < e.datetimeUtc then some 0
    else (nowTideIndex rest nowUtc).map (· + 1)

/-- The event selected as `next` (`all_tides_flat[now_tide_index]`). -/
def nextEvent (events : List FlatTide) (nowUtc : Nat) : Option FlatTide :=
  (nowTideIndex events nowUtc).bind (fun i => events.get? i)

/-- The event selected as `previous` (`all_tides_flat[now_tide_index - 1]` when
`now_tide_index > 0`). -/
def previousEvent (events : List FlatTide) (nowUtc : Nat) : Option FlatTide :=
  (nowTideIndex events nowUtc).bind (fun i => if 0 < i then events.get? (i - 1) else none)

/-! ## Current height from water levels -/

/-- The time field of one water-level sample: `HH:MM` (gets `":00"` appended
before parsing), `HH:MM:SS`, or anything else (raises and is skipped). -/
inductive WLTime
  | hm (h m : Nat)
  | hms (h m s : Nat)
  | bad
  deriving Repr, DecidableEq

/-- One water-level entry `[local_time, height]`. -/
structure WLSample where
  time : WLTime
  height : String
  deriving Repr, DecidableEq

/-- Parsing of a sample's `(today, local_time)` into a UTC instant; `none` for
the entries skipped on `ValueError`/timezone errors. -/
def parseWLTime (day : Nat) : WLTime → Option Nat
  | .hm h m => some (day * 86400 + h * 3600 + m * 60)
  | .hms h m s => some (day * 86400 + h * 3600 + m * 60 + s)
  | .bad => none

/-- The closest-sample scan: fold over today's samples keeping the entry with
the strictly smallest `abs(now_utc - entry_dt)` seen so far, skipping samples
whose time does not parse. The accumulator carries `(closest_entry, min_diff)`
with the distance in seconds. -/
def closestScan (day nowUtc : Nat) :
    List WLSample → Option (WLSample × Nat) → Option (WLSample × Nat)
  | [], acc => acc
  | s :: rest, acc =>
    match parseWLTime day s.time with
    | none => closestScan day nowUtc rest acc
    | some t =>
      match acc with
      | none => closestScan day nowUtc rest (some (s, Nat.dist nowUtc t))
      | some (c, mind) =>
        if Nat.dist nowUtc t < mind then
          closestScan day nowUtc rest (some (s, Nat.dist nowUtc t))
        else closestScan day nowUtc rest (some (c, mind))

/-- `current_water_height`: the closest sample's height, accepted only when its
distance to now is at most 15 minutes (the `float(...)` conversion is modelled
as the height string itself). -/
def currentHeight (samples : List WLSample) (day nowUtc : Nat) : Option String :=
  match closestScan day nowUtc samples none with
  | none => none
  | some (c, mind) => if mind ≤ 15 * 60 then some c.height else none

/-! ## Next spring/neap tide scan -/

/-- The qualifying daily maximum used by the spring/neap scan: the day's
coefficient list when present and non-empty, reduced to `max` of its valid
numeric entries (`none` when the day is skipped). -/
def dayMaxOf (coeffRaw : List (Nat × List String)) (d : Nat) : Option Nat :=
  match alookup coeffRaw d with
  | none => none
  | some cs => if cs.isEmpty then none else dayMaxCoeff cs

/-- The forward pass over sorted coefficient dates: skip dates before today,
record the first date whose maximum reaches `SPRING_TIDE_THRESHOLD` and,
independently, the first whose maximum is at most `NEAP_TIDE_THRESHOLD`,
stopping once both are found. -/
def springNeapGo (coeffRaw : List (Nat × List String)) (today : Nat) :
    List Nat → Option (Nat × Nat) → Option (Nat × Nat) →
    Option (Nat × Nat) × Option (Nat × Nat)
  | [], spring, neap => (spring, neap)
  | d :: rest, spring, neap =>
    if d < today then springNeapGo coeffRaw today rest spring neap
    else
      match dayMaxOf coeffRaw d with
      | none => springNeapGo coeffRaw today rest spring neap
      | some m =>
        let spring1 := if spring = none ∧ SPRING_TIDE_THRESHOLD ≤ m then some (d, m) else spring
        let neap1 := if neap = none ∧ m ≤ NEAP_TIDE_THRESHOLD then some (d, m) else neap
        if spring1.isSome ∧ neap1.isSome then (spring1, neap1)
        else springNeapGo coeffRaw today rest spring1 neap1

/-- The spring/neap search of `_parse_tide_data`: iterate
`sorted(coeff_raw_data.keys())` in ascending order. -/
def springNeapScan (coeffRaw : List (Nat × List String)) (today : Nat) :
    Option (Nat × Nat) × Option (Nat × Nat) :=
  springNeapGo coeffRaw today (List.insertionSort (· ≤ ·) (coeffRaw.map Prod.fst)) none none

/-! ## Snapshot assembly (`_parse_tide_data` output) -/

/-- `next_data`/`previous_data` dictionaries (inner values may be the Python
`None`, which only top-level filtering removes). -/
structure EventData where
  tideTrend : String
  startingTime : Nat
  finishedTime : Nat
  startingHeight : Option String
  finishedHeight : String
  coefficient : Option String
  deriving Repr, DecidableEq

/-- `now_data` dictionary; `currentHeight` is the key added after the water
level computation. -/
structure NowData where
  tideTrend : String
  startingTime : Nat
  finishedTime : Nat
  startingHeight : String
  finishedHeight : String
  coefficient : Option String
  currentHeight : Option String
  deriving Repr, DecidableEq

/-- Per-date value inside the water-level payload handed to the parser. -/
inductive WaterDayVal
  | samples (l : List WLSample)
  | notList
  deriving Repr, DecidableEq

/-- The `water_level_raw_data` argument: a date-keyed mapping or something
that is not a dict. -/
inductive WaterRawData
  | map (entries : List (Nat × WaterDayVal))
  | notDict
  deriving Repr, DecidableEq

/-- Values of the parser's result mapping. -/
inductive SnapVal
  | nowV (d : NowData)
  | eventV (d : EventData)
  | dateV (d : Nat)
  | strV (s : String)
  | tsV (t : Nat)
  deriving Repr, DecidableEq

/-- The flattened, sorted, coefficient-filled event list of a parser run. -/
def allTidesFlat (tidesRaw : List (Nat × List RawTideInfo))
    (coeffRaw : List (Nat × List String)) : List FlatTide :=
  fillCoefficients coeffRaw (sortTides (flattenTides tidesRaw))

/-- `next_data` as a function of the event list and `now`. -/
def nextDataOf (events : List FlatTide) (nowUtc : Nat) : Option EventData :=
  (nowTideIndex events nowUtc).bind (fun i => (events.get? i).map (fun e =>
    { tideTrend := e.translatedType, startingTime := e.datetimeUtc,
      finishedTime := e.datetimeUtc,
      startingHeight := if 0 < i then (events.get? (i - 1)).map FlatTide.height else none,
      finishedHeight := e.height, coefficient := e.coefficient }))

/-- `previous_data` as a function of the event list and `now`. -/
def previousDataOf (events : List FlatTide) (nowUtc : Nat) : Option EventData :=
  (nowTideIndex events nowUtc).bind (fun i =>
    if 0 < i then
      (events.get? (i - 1)).map (fun p =>
        { tideTrend := p.translatedType, startingTime := p.datetimeUtc,
          finishedTime := p.datetimeUtc,
          startingHeight := if 1 < i then (events.get? (i - 2)).map FlatTide.height else none,
          finishedHeight := p.height, coefficient := p.coefficient })
    else none)

/-- `now_data` before the current-height key is added: needs both a next and a
previous event; trend is `"rising"` when the previous event is a low tide. -/
def nowDataOf (events : List FlatTide) (nowUtc : Nat) : Option NowData :=
  (nowTideIndex events nowUtc).bind (fun i =>
    if 0 < i then
      (events.get? i).bind (fun e => (events.get? (i - 1)).map (fun p =>
        { tideTrend := if p.ttype = TIDE_LOW then "rising" else "falling",
          startingTime := p.datetimeUtc, finishedTime := e.datetimeUtc,
          startingHeight := p.height, finishedHeight := e.height,
          coefficient := e.coefficient, currentHeight := none }))
    else none)

/-- Extraction of today's sample list from `water_level_raw_data`: the data
must be a dict whose value at today's key is a list, otherwise `None`. -/
def extractWaterLevels (waterRaw : Option WaterRawData) (today : Nat) :
    Option (List WLSample) :=
  match waterRaw with
  | some (.map entries) =>
    match alookup entries today with
    | some (.samples l) => some l
    | _ => none
  | _ => none

/-- The `final_data` dictionary of `_parse_tide_data`, before `None`-valued
top-level keys are filtered out. -/
def assembleSnapshot (tidesRaw : List (Nat × List RawTideInfo))
    (coeffRaw : List (Nat × List String)) (waterRaw : Option WaterRawData)
    (today nowUtc : Nat) : List (String × Option SnapVal) :=
  if tidesRaw.isEmpty then []
  else
    [("now_data",
      (match nowDataOf (allTidesFlat tidesRaw coeffRaw) nowUtc,
             currentHeight ((extractWaterLevels waterRaw today).getD []) today nowUtc with
       | some nd, some h => some { nd with currentHeight := some h }
       | x, _ => x).map SnapVal.nowV),
     ("next_data", (nextDataOf (allTidesFlat tidesRaw coeffRaw) nowUtc).map SnapVal.eventV),
     ("previous_data",
      (previousDataOf (allTidesFlat tidesRaw coeffRaw) nowUtc).map SnapVal.eventV),
     ("next_spring_date",
      (springNeapScan coeffRaw (nowUtc / 86400)).1.map (fun p => SnapVal.dateV p.1)),
     ("next_spring_coeff",
      (springNeapScan coeffRaw (nowUtc / 86400)).1.map (fun p => SnapVal.strV (toString p.2))),
     ("next_neap_date",
      (springNeapScan coeffRaw (nowUtc / 86400)).2.map (fun p => SnapVal.dateV p.1)),
     ("next_neap_coeff",
      (springNeapScan coeffRaw (nowUtc / 86400)).2.map (fun p => SnapVal.strV (toString p.2))),
     ("last_update", some (SnapVal.tsV nowUtc))]

/-- `_parse_tide_data` top level: an empty tide mapping short-circuits to a
`last_update`-only result; otherwise the assembled dictionary is returned with
the `None`-valued top-level keys omitted. -/
def parseTideData (tidesRaw : List (Nat × List RawTideInfo))
    (coeffRaw : List (Nat × List String)) (waterRaw : Option WaterRawData)
    (today nowUtc : Nat) : List (String × SnapVal) :=
  if tidesRaw.isEmpty then [("last_update", SnapVal.tsV nowUtc)]
  else
    (assembleSnapshot tidesRaw coeffRaw waterRaw today nowUtc).filterMap
      (fun kv => kv.2.map (fun v => (kv.1, v)))

/-! ## Retrying fetcher (`api_helpers._async_fetch_with_retry`) -/

/-- The error classes caught by one fetch attempt: `asyncio.TimeoutError`,
`aiohttp.ClientResponseError` (4xx/5xx), `aiohttp.ClientError`, and any other
exception (including payload-decode errors). -/
inductive FetchError
  | timeoutErr
  | httpError (status : Nat)
  | clientError
  | otherError
  deriving Repr, DecidableEq

/-- Modelled from the spec: `API_REQUEST_DELAY` is imported from the
integration's constants module, which does not define it in the sources
provided; the spec fixes the pre-request courtesy delay to one second. -/
def API_REQUEST_DELAY : Nat := 1

/-- Outcome classifier for one attempt. -/
def fetchOk {α : Type} : Except FetchError α → Bool
  | .ok _ => true
  | .error _ => false

/-- Two attempt outcomes that the fetcher must not distinguish: equal payloads
on success, arbitrary (possibly different) error classes on failure. -/
def sameOutcome {α : Type} : Except FetchError α → Except FetchError α → Prop
  | .ok a, .ok b => a = b
  | .error _, .error _ => True
  | _, _ => False

/-- Observable trace of one fetcher invocation: the returned value (`none`
after exhaustion), the number of attempts made, and the `asyncio.sleep`
durations in seconds in order. -/
structure FetchTrace (α : Type) where
  result : Option α
  attempts : Nat
  sleeps : List Nat
  deriving Repr

/-- The retry loop `for attempt in range(max_retries)` with
`current_delay = initial_delay * 2**attempt`, sleeping only when a further
attempt remains; `fuel` is the number of attempts left. -/
def fetchAttempts {α : Type} (outcomes : Nat → Except FetchError α) :
    Nat → Nat → FetchTrace α
  | _, 0 => ⟨none, 0, []⟩
  | attempt, fuel + 1 =>
    match outcomes attempt with
    | .ok a => ⟨some a, 1, []⟩
    | .error _ =>
      if fuel = 0 then ⟨none, 1, []⟩
      else
        let rest := fetchAttempts outcomes (attempt + 1) fuel
        ⟨rest.result, rest.attempts + 1, 5 * 2 ^ attempt :: rest.sleeps⟩

/-- `_async_fetch_with_retry` with `max_retries = 5`, `initial_delay = 5`: the
fixed `API_REQUEST_DELAY` sleep precedes the first attempt; the network fetch
is abstracted as the per-attempt outcome function. -/
def fetchWithRetry {α : Type} (outcomes : Nat → Except FetchError α) : FetchTrace α :=
  let t := fetchAttempts outcomes 0 5
  ⟨t.result, t.attempts, API_REQUEST_DELAY :: t.sleeps⟩

/-! ## Coefficient fetch-and-store
(`api_helpers._async_fetch_and_store_coefficients`, duplicated in
`__init__._async_fetch_and_store_coefficients`) -/

/-- One item inside a day's coefficient list: a plain string, a single-element
list wrapping a string (the API inconsistency that is unwrapped), or any other
shape (skipped with a warning). -/
inductive CoeffItem
  | str (s : String)
  | wrapped (s : String)
  | bad
  deriving Repr, DecidableEq

/-- One day's entry inside a month: a list of items or something else
(skipped, but still counted as a processed day). -/
inductive DailyCoeffs
  | list (items : List CoeffItem)
  | notList
  deriving Repr, DecidableEq

/-- One month's entry of the fetched payload. -/
inductive MonthlyCoeffs
  | list (days : List DailyCoeffs)
  | notList
  deriving Repr, DecidableEq

/-- `parsed_coeffs` for one day: unwrap valid items, skip the rest. -/
def parseDailyItems : List CoeffItem → List String
  | [] => []
  | .str s :: rest => s :: parseDailyItems rest
  | .wrapped s :: rest => s :: parseDailyItems rest
  | .bad :: rest => parseDailyItems rest

/-- The inner `for daily_coeffs in monthly_coeffs_list` loop: `dateOf n` is
`(start_date + timedelta(days=n)).strftime(...)`; a day is stored only when it
parsed to a non-empty list; the day counter advances for every entry walked
and the loop stops once `days` entries are processed. -/
def processDays {κ : Type} [DecidableEq κ] (dateOf : Nat → κ) (days : Nat) :
    List DailyCoeffs → Nat → List (κ × List String) → Nat × List (κ × List String)
  | [], processed, cache => (processed, cache)
  | daily :: rest, processed, cache =>
    if days ≤ processed then (processed, cache)
    else
      match daily with
      | .notList => processDays dateOf days rest (processed + 1) cache
      | .list items =>
        let parsed := parseDailyItems items
        if parsed.isEmpty then processDays dateOf days rest (processed + 1) cache
        else processDays dateOf days rest (processed + 1) (aset cache (dateOf processed) parsed)

/-- The outer `for monthly_coeffs_list in fetched_data_list` loop, with the
bottom-of-loop `break` once enough days are processed. -/
def processMonths {κ : Type} [DecidableEq κ] (dateOf : Nat → κ) (days : Nat) :
    List MonthlyCoeffs → Nat → List (κ × List String) → Nat × List (κ × List String)
  | [], processed, cache => (processed, cache)
  | monthly :: rest, processed, cache =>
    let pc :=
      match monthly with
      | .list ds => processDays dateOf days ds processed cache
      | .notList => (processed, cache)
    if days ≤ pc.1 then pc
    else processMonths dateOf days rest pc.1 pc.2

/-- Result of one coefficient fetch-and-store invocation: the in-memory full
cache document, the processed-day count, whether `store.async_save` ran, and
the returned boolean. -/
structure CoeffStoreResult (κ : Type) where
  mem : List (String × List (κ × List String))
  processed : Nat
  saved : Bool
  success : Bool

/-- `_async_fetch_and_store_coefficients` with the fetch abstracted to its
outcome (`none` covers both retry exhaustion and a non-list payload): ensure
the harbor key, walk the months, persist on full success and also partially
when at least one day was processed, and succeed only when the processed count
equals the requested `days`. -/
def fetchAndStoreCoefficients {κ : Type} [DecidableEq κ]
    (fetched : Option (List MonthlyCoeffs))
    (cache : List (String × List (κ × List String))) (harbor : String)
    (dateOf : Nat → κ) (days : Nat) : CoeffStoreResult κ :=
  match fetched with
  | none => ⟨cache, 0, false, false⟩
  | some months =>
    let hc0 := (alookup cache harbor).getD []
    let pc := processMonths dateOf days months 0 hc0
    let mem := aset cache harbor pc.2
    if pc.1 = days then ⟨mem, pc.1, true, true⟩
    else if 0 < pc.1 then ⟨mem, pc.1, true, false⟩
    else ⟨mem, pc.1, false, false⟩

/-- Total number of day entries in a fetched coefficient payload (months that
are not lists contribute none). -/
def totalDays : List MonthlyCoeffs → Nat
  | [] => 0
  | .list ds :: rest => ds.length + totalDays rest
  | .notList :: rest => totalDays rest

/-- The flat sequence of day entries as the sequential walk visits them. -/
def flattenMonths : List MonthlyCoeffs → List DailyCoeffs
  | [] => []
  | .list ds :: rest => ds ++ flattenMonths rest
  | .notList :: rest => flattenMonths rest

/-- A day entry that parses to a non-empty coefficient list. -/
def wellFormedDaily : DailyCoeffs → Bool
  | .list items => !items.isEmpty && items.all (fun it =>
      match it with
      | .str _ => true
      | .wrapped _ => true
      | .bad => false)
  | .notList => false

/-- A fetched payload in the documented shape: every month a list of
well-formed day entries. -/
def wellFormedFetched (months : List MonthlyCoeffs) : Bool :=
  months.all (fun m =>
    match m with
    | .list ds => ds.all wellFormedDaily
    | .notList => false)

/-- The coefficient list a well-formed day entry stores. -/
def parseDaily : DailyCoeffs → List String
  | .list items => parseDailyItems items
  | .notList => []

/-! ## Water-level fetch-and-store -/

/-- A value inside the water-level payload mapping: a JSON list (contents
irrelevant to the shape check, abstracted to a tag) or anything else. -/
inductive WLVal
  | list (n : Nat)
  | other
  deriving Repr, DecidableEq

/-- The decoded water-level payload: a date-keyed mapping or a non-dict. -/
inductive WLPayload
  | map (entries : List (Nat × WLVal))
  | notMap
  deriving Repr, DecidableEq

/-- The `valid_structure` check of `api_helpers._async_fetch_and_store_water_level`:
the payload is a dict, the requested date is one of its keys, and the value
there is a list. -/
def validWLStructure (data : WLPayload) (dateKey : Nat) : Bool :=
  match data with
  | .notMap => false
  | .map entries =>
    match alookup entries dateKey with
    | some (.list _) => true
    | some .other => false
    | none => false

/-- Result of one water-level fetch-and-store invocation. -/
structure WLStoreResult where
  cache : List (String × List (Nat × WLPayload))
  result : Option WLPayload
  saved : Bool
  deriving Repr, DecidableEq

/-- `api_helpers._async_fetch_and_store_water_level` with the retried fetch
abstracted to its outcome: validate the payload shape, discard and fail on a
violation, otherwise store the whole payload under the harbor and date and
persist the document. -/
def fetchAndStoreWaterLevel (fetched : Option WLPayload)
    (cache : List (String × List (Nat × WLPayload))) (harbor : String)
    (dateKey : Nat) : WLStoreResult :=
  match fetched with
  | none => ⟨cache, none, false⟩
  | some data =>
    if validWLStructure data dateKey then
      ⟨aset cache harbor (aset ((alookup cache harbor).getD []) dateKey data),
       some data, true⟩
    else ⟨cache, none, false⟩

/-- `__init__._async_fetch_and_store_water_level` (the copy used by the
prefetch job and the service handler) with the single fetch abstracted to its
outcome: any decoded payload is cached and persisted without shape
validation. -/
def initFetchAndStoreWaterLevel {κ : Type} [DecidableEq κ] (fetched : Option WLPayload)
    (cache : List (String × List (κ × WLPayload))) (harbor : String)
    (dateKey : κ) : List (String × List (κ × WLPayload)) × Option WLPayload :=
  match fetched with
  | none => (cache, none)
  | some data =>
    (aset cache harbor (aset ((alookup cache harbor).getD []) dateKey data), some data)

/-! ## Coordinator validate-and-repair (`coordinator._validate_and_repair_cache`) -/

/-- Shape of one per-date value in a cached harbor sub-document: a JSON list,
a JSON object, or anything else (contents beyond what the shape checks inspect
are irrelevant). -/
inductive CVal
  | vlist
  | vdict (m : List (Nat × CVal))
  | vother

/-- Shape of the harbor-level value of a cache document. -/
inductive HarborVal
  | hdict (m : List (Nat × CVal))
  | hother

/-- The three datasets the coordinator validates. -/
inductive DataType
  | tides
  | coefficients
  | waterLevels
  deriving Repr, DecidableEq

/-- The per-date validation: water levels need a dict that contains the date
key again with a list value; tides and coefficients need a list. -/
def validDaily : DataType → Nat → CVal → Bool
  | .waterLevels, dateKey, .vdict m =>
    (match alookup m dateKey with
     | some .vlist => true
     | _ => false)
  | .waterLevels, _, _ => false
  | _, _, .vlist => true
  | _, _, _ => false

/-- The `needs_repair` decision on `cache_full.get(harbor_id, {})`: not a dict,
or empty for tides/coefficients, or some per-date value failing the
dataset-specific check. -/
def needsRepair (dtype : DataType) (hv : Option HarborVal) : Bool :=
  match hv.getD (.hdict []) with
  | .hother => true
  | .hdict m =>
    if m.isEmpty then
      match dtype with
      | .waterLevels => false
      | _ => true
    else m.any (fun kv => !validDaily dtype kv.1 kv.2)

/-- Observable outcome of one validate-and-repair pass: the returned full
cache, the returned harbor sub-document, the store content after the pass, and
the cleaned document persisted before re-fetching (`none` when no repair was
needed). -/
structure RepairResult where
  cacheFull : List (String × HarborVal)
  harborCache : HarborVal
  stored : List (String × HarborVal)
  cleanedSaved : Option (List (String × HarborVal))

/-- `_validate_and_repair_cache` with the dataset's fetch helper abstracted to
a function from the (cleaned) document to the resulting store content and its
boolean outcome. On repair the harbor key is deleted, the cleaned document
saved, the fetch attempted; success reloads the store, failure leaves the
harbor sub-document empty. (In-memory mutations left behind by a failed fetch
helper are not modelled; the exception path is not modelled.) -/
def validateAndRepairCache (dtype : DataType) (cacheFull : List (String × HarborVal))
    (harbor : String)
    (fetch : List (String × HarborVal) → List (String × HarborVal) × Bool) :
    RepairResult :=
  if needsRepair dtype (alookup cacheFull harbor) then
    let cleaned := aerase cacheFull harbor
    let fr := fetch cleaned
    if fr.2 then ⟨fr.1, (alookup fr.1 harbor).getD (.hdict []), fr.1, some cleaned⟩
    else ⟨cleaned, .hdict [], fr.1, some cleaned⟩
  else ⟨cacheFull, (alookup cacheFull harbor).getD (.hdict []), cacheFull, none⟩

/-- `_async_fetch_and_store_tides` at shape level, with the retried fetch
abstracted to its outcome (`none` covers both failure and a non-dict payload):
every per-date value of a dict payload is stored verbatim — no per-date shape
validation — then the document is persisted. The `hother → []` branch mirrors
`cache.setdefault` only being reachable here with the harbor key absent. -/
def fetchAndStoreTidesShape (fetched : Option (List (Nat × CVal)))
    (cache : List (String × HarborVal)) (harbor : String) :
    List (String × HarborVal) × Bool :=
  match fetched with
  | none => (cache, false)
  | some entries =>
    let hc0 : List (Nat × CVal) :=
      match (alookup cache harbor).getD (.hdict []) with
      | .hdict m => m
      | .hother => []
    let hc1 : List (Nat × CVal) := entries.foldl (fun m kv => aset m kv.1 kv.2) hc0
    (aset cache harbor (.hdict hc1), true)

/-! ## Calendar dates and the prefetch jobs (`__init__`) -/

/-- A Python `datetime.date`. -/
structure Date where
  year : Nat
  month : Nat
  day : Nat
  deriving Repr, DecidableEq

/-- Python `date` comparison `a < b` (lexicographic on year, month, day). -/
def Date.Lt (a b : Date) : Prop :=
  a.year < b.year ∨ (a.year = b.year ∧ (a.month < b.month ∨ (a.month = b.month ∧ a.day < b.day)))

instance (a b : Date) : Decidable (Date.Lt a b) := by
  unfold Date.Lt
  infer_instance

/-- The coefficient pruning condition of
`async_check_and_prefetch_coefficients`: the key's year is before the current
year, or same year with an earlier month. -/
def Date.MonthLt (a b : Date) : Prop :=
  a.year < b.year ∨ (a.year = b.year ∧ a.month < b.month)

instance (a b : Date) : Decidable (Date.MonthLt a b) := by
  unfold Date.MonthLt
  infer_instance

/-- Gregorian leap year. -/
def isLeapYear (y : Nat) : Bool := (y % 4 = 0 && y % 100 ≠ 0) || y % 400 = 0

/-- Days in a Gregorian month. -/
def daysInMonth (y m : Nat) : Nat :=
  if m = 2 then (if isLeapYear y then 29 else 28)
  else if m = 4 ∨ m = 6 ∨ m = 9 ∨ m = 11 then 30
  else 31

/-- `d + timedelta(days=1)`. -/
def Date.next (d : Date) : Date :=
  if d.day < daysInMonth d.year d.month then ⟨d.year, d.month, d.day + 1⟩
  else if d.month < 12 then ⟨d.year, d.month + 1, 1⟩
  else ⟨d.year + 1, 1, 1⟩

/-- `d - timedelta(days=1)`. -/
def Date.pred (d : Date) : Date :=
  if 1 < d.day then ⟨d.year, d.month, d.day - 1⟩
  else if 1 < d.month then ⟨d.year, d.month - 1, daysInMonth d.year (d.month - 1)⟩
  else ⟨d.year - 1, 12, 31⟩

/-- `d + timedelta(days=n)`. -/
def addDays : Nat → Date → Date
  | 0, d => d
  | n + 1, d => (addDays n d).next

/-- A date key of a persisted cache document: a parsable `YYYY-MM-DD` string or
one on which `date.fromisoformat` raises (pruned unconditionally). -/
inductive DKey
  | good (d : Date)
  | badKey (s : String)
  deriving Repr, DecidableEq

/-- The tides prune condition: date before yesterday, or unparsable key. -/
def tidePruneKey (yesterday : Date) : DKey → Bool
  | .good d => decide (Date.Lt d yesterday)
  | .badKey _ => true

/-- The coefficients prune condition: year/month strictly before the current
one, or unparsable key. -/
def coeffPruneKey (today : Date) : DKey → Bool
  | .good d => decide (Date.MonthLt d today)
  | .badKey _ => true

/-- `async_check_and_prefetch_water_levels`: compute the dates missing from
`today .. today+7` up front, then fetch-and-store each missing date via the
non-validating `__init__` helper (which persists after each success); the final
store content is the folded cache. This job has no pruning step. -/
def waterPrefetchJob (store0 : List (String × List (DKey × WLPayload))) (harbor : String)
    (today : Date) (payloads : Date → Option WLPayload) :
    List (String × List (DKey × WLPayload)) :=
  let missing := ((List.range 8).map (fun i => addDays i today)).filter
    (fun d => (alookup ((alookup store0 harbor).getD []) (DKey.good d)).isNone)
  missing.foldl
    (fun c d => (initFetchAndStoreWaterLevel (payloads d) c harbor (DKey.good d)).1) store0

/-- The pruning block shared by the tides and coefficients prefetch jobs:
delete every date key matching the prune condition (keeping dict order),
remove the harbor key entirely when its sub-document becomes empty, and report
whether anything changed (`needs_save`). -/
def pruneHarborKeys {β : Type} (pruneKey : DKey → Bool)
    (store0 : List (String × List (DKey × β))) (harbor : String) :
    List (String × List (DKey × β)) × Bool :=
  match alookup store0 harbor with
  | none => (store0, false)
  | some hc =>
    let pruned := hc.filter (fun kv => !pruneKey kv.1)
    if pruned.isEmpty then (aerase store0 harbor, true)
    else if hc.any (fun kv => pruneKey kv.1) then (aset store0 harbor pruned, true)
    else (store0, false)

/-- `async_check_and_prefetch_tides`, returning the persisted store content
after the run. When any of yesterday..today+6 is missing, the fetch helper runs
and its saved document is final: the subsequent in-memory pruning is not
persisted (`needs_save and not needs_fetch` guards the save), and a failed
fetch returns early. Without a fetch, pruning removes keys before yesterday
(and unparsable keys), deletes the harbor key if emptied, and persists exactly
when something changed. -/
def tidesPrefetchJob {β : Type} (store0 : List (String × List (DKey × β))) (harbor : String)
    (today : Date)
    (fetch : List (String × List (DKey × β)) → List (String × List (DKey × β)) × Bool) :
    List (String × List (DKey × β)) :=
  let yesterday := Date.pred today
  let checkDates := yesterday :: (List.range 7).map (fun i => addDays i today)
  let needsFetch := checkDates.any
    (fun d => (alookup ((alookup store0 harbor).getD []) (DKey.good d)).isNone)
  if needsFetch then (fetch store0).1
  else
    let pr := pruneHarborKeys (tidePruneKey yesterday) store0 harbor
    if pr.2 then pr.1 else store0

/-- `async_check_and_prefetch_coefficients`, returning the persisted store
content after the run. Pruning by year/month comes first; then the first
missing date in the 365-day window starting at the first of the current month
is sought; if found, the coefficient fetch-and-store helper runs for
`(required_end - first_missing).days + 1 = 365 - j` days from it (and
persists on full or partial success); a pruned-only run persists exactly when
pruning changed something. -/
def coeffPrefetchJob (store0 : List (String × List (DKey × List String))) (harbor : String)
    (today : Date) (payload : Option (List MonthlyCoeffs)) :
    List (String × List (DKey × List String)) :=
  let pr := pruneHarborKeys (coeffPruneKey today) store0 harbor
  let requiredStart : Date := ⟨today.year, today.month, 1⟩
  let firstMissing := (List.range 365).find?
    (fun i => (alookup ((alookup pr.1 harbor).getD []) (DKey.good (addDays i requiredStart))).isNone)
  match firstMissing with
  | none => if pr.2 then pr.1 else store0
  | some j =>
    let r := fetchAndStoreCoefficients payload pr.1 harbor
      (fun n => DKey.good (addDays n (addDays j requiredStart))) (365 - j)
    if r.saved || pr.2 then r.mem else store0

/-! ## Basic lemmas on the embedding's helpers -/

theorem le_foldl_max (x : Nat) (xs : List Nat) : x ≤ xs.foldl max x := by
  induction xs generalizing x with
  | nil => exact Nat.le_refl x
  | cons a as ih => exact Nat.le_trans (Nat.le_max_left x a) (ih (max x a))

theorem mem_le_foldl_max : ∀ {xs : List Nat} (x : Nat) {y : Nat}, y ∈ xs → y ≤ xs.foldl max x := by
  intro xs
  induction xs with
  | nil => intro x y hy; cases hy
  | cons a as ih =>
    intro x y hy
    rcases List.mem_cons.mp hy with rfl | hmem
    · exact Nat.le_trans (Nat.le_max_right x y) (le_foldl_max _ as)
    · exact ih _ hmem

theorem foldl_max_mem : ∀ (xs : List Nat) (x : Nat), xs.foldl max x = x ∨ xs.foldl max x ∈ xs := by
  intro xs
  induction xs with
  | nil => intro x; left; rfl
  | cons a as ih =>
    intro x
    rcases ih (max x a) with h | h
    · by_cases hxa : x ≤ a
      · right
        rw [List.foldl_cons, h, Nat.max_eq_right hxa]
        exact List.mem_cons_self a as
      · left
        rw [List.foldl_cons, h, Nat.max_eq_left (Nat.le_of_not_le hxa)]
    · right
      rw [List.foldl_cons]
      exact List.mem_cons_of_mem a h

/-- A computed day maximum is a valid coefficient of the day and bounds all of
them. -/
theorem dayMaxCoeff_spec {cs : List String} {m : Nat} (h : dayMaxCoeff cs = some m) :
    m ∈ validCoeffsInt cs ∧ ∀ y ∈ validCoeffsInt cs, y ≤ m := by
  unfold dayMaxCoeff at h
  cases hv : validCoeffsInt cs with
  | nil => rw [hv] at h; cases h
  | cons x xs =>
    rw [hv] at h
    cases h
    refine ⟨?_, ?_⟩
    · rcases foldl_max_mem xs x with he | he
      · rw [he]; exact List.mem_cons_self x xs
      · exact List.mem_cons_of_mem x he
    · intro y hy
      rcases List.mem_cons.mp hy with rfl | hmem
      · exact le_foldl_max y xs
      · exact mem_le_foldl_max x hmem

theorem dayMaxCoeff_eq_none_iff {cs : List String} :
    dayMaxCoeff cs = none ↔ validCoeffsInt cs = [] := by
  unfold dayMaxCoeff
  cases hv : validCoeffsInt cs <;> simp

/-! ## Claim C1: next/previous selection -/

theorem nowTideIndex_eq_none_iff {events : List FlatTide} {now : Nat} :
    nowTideIndex events now = none ↔ ∀ e ∈ events, e.datetimeUtc ≤ now := by
  induction events with
  | nil => simp [nowTideIndex]
  | cons a rest ih =>
    simp only [nowTideIndex]
    by_cases h : now < a.datetimeUtc
    · simp only [if_pos h, List.forall_mem_cons]
      constructor
      · intro hc; cases hc
      · intro hall; exact absurd hall.1 (by omega)
    · simp only [if_neg h, Option.map_eq_none', ih, List.forall_mem_cons]
      constructor
      · intro hall; exact ⟨by omega, hall⟩
      · intro hall; exact hall.2

theorem nowTideIndex_eq_some_spec {events : List FlatTide} {now i : Nat}
    (h : nowTideIndex events now = some i) :
    ∃ e, events.get? i = some e ∧ now < e.datetimeUtc ∧
      ∀ j, j < i → ∃ e2, events.get? j = some e2 ∧ e2.datetimeUtc ≤ now := by
  induction events generalizing i with
  | nil => simp [nowTideIndex] at h
  | cons a rest ih =>
    simp only [nowTideIndex] at h
    by_cases hlt : now < a.datetimeUtc
    · rw [if_pos hlt] at h
      cases h
      exact ⟨a, rfl, hlt, fun j hj => absurd hj (by omega)⟩
    · rw [if_neg hlt] at h
      rcases Option.map_eq_some'.mp h with ⟨i0, hi0, rfl⟩
      rcases ih hi0 with ⟨e, hget, hnow, hprev⟩
      refine ⟨e, by simpa using hget, hnow, ?_⟩
      intro j hj
      cases j with
      | zero => exact ⟨a, rfl, Nat.le_of_not_lt hlt⟩
      | succ j0 =>
        rcases hprev j0 (by omega) with ⟨e2, h1, h2⟩
        exact ⟨e2, by simpa using h1, h2⟩

theorem nextEvent_eq_find (events : List FlatTide) (now : Nat) :
    nextEvent events now = events.find? (fun e => decide (now < e.datetimeUtc)) := by
  induction events with
  | nil => rfl
  | cons a rest ih =>
    by_cases h : now < a.datetimeUtc
    · simp [nextEvent, nowTideIndex, if_pos h, List.find?, h]
    · have hdec : ¬((fun e => decide (now < e.datetimeUtc)) a = true) := by
        simp [h]
      have hstep : List.find? (fun e => decide (now < e.datetimeUtc)) (a :: rest)
          = List.find? (fun e => decide (now < e.datetimeUtc)) rest :=
        List.find?_cons_of_neg rest hdec
      rw [hstep, ← ih]
      simp only [nextEvent, nowTideIndex, if_neg h]
      cases nowTideIndex rest now <;> simp

/-- C1: for every flattened, chronologically sorted tide-event list and
reference instant, the parser picks as `next` the first event strictly after
`now` and as `previous` the one immediately preceding it; so `previous` is at
or before `now`, `next` is strictly after, no event lies strictly between
them, and when no event is strictly after `now` both are left absent. -/
theorem claim1_next_previous_selection (events : List FlatTide) (now : Nat)
    (hs : List.Sorted tideLE events) :
    nextEvent events now = events.find? (fun e => decide (now < e.datetimeUtc))
    ∧ (∀ e, nextEvent events now = some e → now < e.datetimeUtc)
    ∧ (∀ p, previousEvent events now = some p → p.datetimeUtc ≤ now)
    ∧ (∀ p e, previousEvent events now = some p → nextEvent events now = some e →
        ∀ x ∈ events, ¬(p.datetimeUtc < x.datetimeUtc ∧ x.datetimeUtc < e.datetimeUtc))
    ∧ ((∀ x ∈ events, x.datetimeUtc ≤ now) →
        nextEvent events now = none ∧ previousEvent events now = none) := by
  refine ⟨nextEvent_eq_find events now, ?_, ?_, ?_, ?_⟩
  · intro e he
    rcases Option.bind_eq_some.mp he with ⟨i, hi, hget⟩
    rcases nowTideIndex_eq_some_spec hi with ⟨e2, hget2, hnow, _⟩
    rw [hget2] at hget
    cases hget
    exact hnow
  · intro p hp
    rcases Option.bind_eq_some.mp hp with ⟨i, hi, hget⟩
    rcases nowTideIndex_eq_some_spec hi with ⟨e2, _, _, hprev⟩
    by_cases hpos : 0 < i
    · rw [if_pos hpos] at hget
      rcases hprev (i - 1) (by omega) with ⟨e3, h3, h3le⟩
      rw [h3] at hget
      cases hget
      exact h3le
    · rw [if_neg hpos] at hget
      cases hget
  · intro p e hp he x hx hbetween
    rcases Option.bind_eq_some.mp hp with ⟨i, hi, hgetp⟩
    rcases Option.bind_eq_some.mp he with ⟨i2, hi2, hgete⟩
    rw [hi] at hi2
    cases hi2
    by_cases hpos : 0 < i
    · rw [if_pos hpos] at hgetp
      rcases List.get?_eq_some.mp hgetp with ⟨hplen, hpget⟩
      rcases List.get?_eq_some.mp hgete with ⟨helen, heget⟩
      rcases List.mem_iff_get.mp hx with ⟨⟨j, hjlen⟩, hjget⟩
      have hpair := List.pairwise_iff_get.mp hs
      rcases Nat.lt_trichotomy j i with hji | hji | hji
      · rcases Nat.lt_trichotomy j (i - 1) with hj1 | hj1 | hj1
        · have := hpair ⟨j, hjlen⟩ ⟨i - 1, hplen⟩ (by simpa using hj1)
          rw [hjget, hpget] at this
          exact absurd hbetween.1 (by exact Nat.not_lt.mpr this)
        · have hxp : x = p := by
            rw [← hjget, ← hpget]
            congr 1
            exact Fin.ext hj1
          rw [hxp] at hbetween
          exact absurd hbetween.1 (by omega)
        · omega
      · have hxe : x = e := by
          rw [← hjget, ← heget]
          congr 1
          exact Fin.ext hji
        rw [hxe] at hbetween
        exact absurd hbetween.2 (by omega)
      · have := hpair ⟨i, helen⟩ ⟨j, hjlen⟩ (by simpa using hji)
        rw [hjget, heget] at this
        exact absurd hbetween.2 (by exact Nat.not_lt.mpr this)
    · rw [if_neg hpos] at hgetp
      cases hgetp
  · intro hall
    have hnone : nowTideIndex events now = none := nowTideIndex_eq_none_iff.mpr hall
    constructor
    · simp [nextEvent, hnone]
    · simp [previousEvent, hnone]

/-- Witness for C1 at a concrete sorted three-event list with
`now` strictly between the second and third events. -/
theorem claim1_witness :
    nextEvent
      [⟨"tide.low", 0, "1.8", none, 100, 0, "tide.low"⟩,
       ⟨"tide.high", 0, "8.2", some "90", 200, 0, "tide.high"⟩,
       ⟨"tide.low", 0, "1.5", none, 300, 0, "tide.low"⟩] 250
    = List.find? (fun e => decide (250 < e.datetimeUtc))
       [⟨"tide.low", 0, "1.8", none, 100, 0, "tide.low"⟩,
        ⟨"tide.high", 0, "8.2", some "90", 200, 0, "tide.high"⟩,
        ⟨"tide.low", 0, "1.5", none, 300, 0, "tide.low"⟩] :=
  (claim1_next_previous_selection
    [⟨"tide.low", 0, "1.8", none, 100, 0, "tide.low"⟩,
     ⟨"tide.high", 0, "8.2", some "90", 200, 0, "tide.high"⟩,
     ⟨"tide.low", 0, "1.5", none, 300, 0, "tide.low"⟩] 250 (by decide)).1

/-! ## Claim C2: spring/neap forward scan -/

theorem springNeapGo_cons_lt (coeffRaw : List (Nat × List String)) (today d : Nat)
    (rest : List Nat) (s n : Option (Nat × Nat)) (h1 : d < today) :
    springNeapGo coeffRaw today (d :: rest) s n = springNeapGo coeffRaw today rest s n := by
  simp only [springNeapGo, if_pos h1]

theorem springNeapGo_cons_skip (coeffRaw : List (Nat × List String)) (today d : Nat)
    (rest : List Nat) (s n : Option (Nat × Nat)) (h1 : ¬d < today)
    (hdm : dayMaxOf coeffRaw d = none) :
    springNeapGo coeffRaw today (d :: rest) s n = springNeapGo coeffRaw today rest s n := by
  simp only [springNeapGo, if_neg h1, hdm]

theorem springNeapGo_cons_step (coeffRaw : List (Nat × List String)) (today d : Nat)
    (rest : List Nat) (s n : Option (Nat × Nat)) (m : Nat) (h1 : ¬d < today)
    (hdm : dayMaxOf coeffRaw d = some m) :
    springNeapGo coeffRaw today (d :: rest) s n =
      (if (if s = none ∧ SPRING_TIDE_THRESHOLD ≤ m then some (d, m) else s).isSome = true ∧
          (if n = none ∧ m ≤ NEAP_TIDE_THRESHOLD then some (d, m) else n).isSome = true
       then ((if s = none ∧ SPRING_TIDE_THRESHOLD ≤ m then some (d, m) else s),
             (if n = none ∧ m ≤ NEAP_TIDE_THRESHOLD then some (d, m) else n))
       else springNeapGo coeffRaw today rest
             (if s = none ∧ SPRING_TIDE_THRESHOLD ≤ m then some (d, m) else s)
             (if n = none ∧ m ≤ NEAP_TIDE_THRESHOLD then some (d, m) else n)) := by
  simp only [springNeapGo, if_neg h1, hdm]

theorem springNeapGo_keepSpring (coeffRaw : List (Nat × List String)) (today : Nat) :
    ∀ (l : List Nat) (s : Nat × Nat) (n : Option (Nat × Nat)),
      (springNeapGo coeffRaw today l (some s) n).1 = some s := by
  intro l
  induction l with
  | nil => intro s n; rfl
  | cons d rest ih =>
    intro s n
    by_cases h1 : d < today
    · rw [springNeapGo_cons_lt coeffRaw today d rest _ _ h1]; exact ih s n
    · cases hdm : dayMaxOf coeffRaw d with
      | none => rw [springNeapGo_cons_skip coeffRaw today d rest _ _ h1 hdm]; exact ih s n
      | some m =>
        rw [springNeapGo_cons_step coeffRaw today d rest _ _ m h1 hdm]
        have hns : ¬((some s : Option (Nat × Nat)) = none ∧ SPRING_TIDE_THRESHOLD ≤ m) :=
          fun hc => by cases hc.1
        rw [if_neg hns]
        by_cases hb : ((some s : Option (Nat × Nat)).isSome = true ∧
            (if n = none ∧ m ≤ NEAP_TIDE_THRESHOLD then some (d, m) else n).isSome = true)
        · rw [if_pos hb]
        · rw [if_neg hb]; exact ih s _

theorem springNeapGo_keepNeap (coeffRaw : List (Nat × List String)) (today : Nat) :
    ∀ (l : List Nat) (s : Option (Nat × Nat)) (t : Nat × Nat),
      (springNeapGo coeffRaw today l s (some t)).2 = some t := by
  intro l
  induction l with
  | nil => intro s t; rfl
  | cons d rest ih =>
    intro s t
    by_cases h1 : d < today
    · rw [springNeapGo_cons_lt coeffRaw today d rest _ _ h1]; exact ih s t
    · cases hdm : dayMaxOf coeffRaw d with
      | none => rw [springNeapGo_cons_skip coeffRaw today d rest _ _ h1 hdm]; exact ih s t
      | some m =>
        rw [springNeapGo_cons_step coeffRaw today d rest _ _ m h1 hdm]
        have hnn : ¬((some t : Option (Nat × Nat)) = none ∧ m ≤ NEAP_TIDE_THRESHOLD) :=
          fun hc => by cases hc.1
        rw [if_neg hnn]
        by_cases hb : ((if s = none ∧ SPRING_TIDE_THRESHOLD ≤ m then some (d, m)
              else s).isSome = true ∧ (some t : Option (Nat × Nat)).isSome = true)
        · rw [if_pos hb]
        · rw [if_neg hb]; exact ih _ t

theorem springNeapGo_spring_char (coeffRaw : List (Nat × List String)) (today : Nat) :
    ∀ (l : List Nat), List.Sorted (· ≤ ·) l → ∀ (n : Option (Nat × Nat)),
      (∀ d m, (springNeapGo coeffRaw today l none n).1 = some (d, m) →
        d ∈ l ∧ today ≤ d ∧ dayMaxOf coeffRaw d = some m ∧ SPRING_TIDE_THRESHOLD ≤ m ∧
        ∀ d2 ∈ l, today ≤ d2 → d2 < d → ∀ m2, dayMaxOf coeffRaw d2 = some m2 →
          m2 < SPRING_TIDE_THRESHOLD)
      ∧ ((springNeapGo coeffRaw today l none n).1 = none →
        ∀ d ∈ l, today ≤ d → ∀ m, dayMaxOf coeffRaw d = some m →
          m < SPRING_TIDE_THRESHOLD) := by
  intro l
  induction l with
  | nil =>
    intro _ n
    constructor
    · intro d m h
      cases h
    · intro _ d hd
      cases hd
  | cons d0 rest ih =>
    intro hs n
    have hrest := (List.sorted_cons.mp hs).2
    have hhead := (List.sorted_cons.mp hs).1
    by_cases h1 : d0 < today
    · rw [springNeapGo_cons_lt coeffRaw today d0 rest _ _ h1]
      rcases ih hrest n with ⟨ihsome, ihnone⟩
      constructor
      · intro d m h
        rcases ihsome d m h with ⟨hmem, htoday, hdm2, hge, hmin⟩
        refine ⟨List.mem_cons_of_mem _ hmem, htoday, hdm2, hge, ?_⟩
        intro d2 hd2 ht2 hlt2 m2 hm2
        rcases List.mem_cons.mp hd2 with rfl | hd2r
        · omega
        · exact hmin d2 hd2r ht2 hlt2 m2 hm2
      · intro h d hd ht m hm
        rcases List.mem_cons.mp hd with rfl | hdr
        · omega
        · exact ihnone h d hdr ht m hm
    · cases hdm : dayMaxOf coeffRaw d0 with
      | none =>
        rw [springNeapGo_cons_skip coeffRaw today d0 rest _ _ h1 hdm]
        rcases ih hrest n with ⟨ihsome, ihnone⟩
        constructor
        · intro d m h
          rcases ihsome d m h with ⟨hmem, htoday, hdm2, hge, hmin⟩
          refine ⟨List.mem_cons_of_mem _ hmem, htoday, hdm2, hge, ?_⟩
          intro d2 hd2 ht2 hlt2 m2 hm2
          rcases List.mem_cons.mp hd2 with rfl | hd2r
          · rw [hdm] at hm2; cases hm2
          · exact hmin d2 hd2r ht2 hlt2 m2 hm2
        · intro h d hd ht m hm
          rcases List.mem_cons.mp hd with rfl | hdr
          · rw [hdm] at hm; cases hm
          · exact ihnone h d hdr ht m hm
      | some m0 =>
        rw [springNeapGo_cons_step coeffRaw today d0 rest _ _ m0 h1 hdm]
        by_cases hsp : (none : Option (Nat × Nat)) = none ∧ SPRING_TIDE_THRESHOLD ≤ m0
        · rw [if_pos hsp]
          have hfound :
              (if (some (d0, m0) : Option (Nat × Nat)).isSome = true ∧
                  (if n = none ∧ m0 ≤ NEAP_TIDE_THRESHOLD then some (d0, m0)
                   else n).isSome = true
               then ((some (d0, m0) : Option (Nat × Nat)),
                     (if n = none ∧ m0 ≤ NEAP_TIDE_THRESHOLD then some (d0, m0) else n))
               else springNeapGo coeffRaw today rest (some (d0, m0))
                     (if n = none ∧ m0 ≤ NEAP_TIDE_THRESHOLD then some (d0, m0) else n)).1
              = some (d0, m0) := by
            by_cases hb : (some (d0, m0) : Option (Nat × Nat)).isSome = true ∧
                (if n = none ∧ m0 ≤ NEAP_TIDE_THRESHOLD then some (d0, m0)
                 else n).isSome = true
            · rw [if_pos hb]
            · rw [if_neg hb]
              exact springNeapGo_keepSpring coeffRaw today rest (d0, m0) _
          constructor
          · intro d m h
            rw [hfound] at h
            cases h
            refine ⟨List.mem_cons_self _ _, by omega, hdm, hsp.2, ?_⟩
            intro d2 hd2 ht2 hlt2 m2 hm2
            rcases List.mem_cons.mp hd2 with rfl | hd2r
            · omega
            · exact absurd hlt2 (Nat.not_lt.mpr (hhead d2 hd2r))
          · intro h
            rw [hfound] at h
            cases h
        · rw [if_neg hsp]
          have hm0lt : m0 < SPRING_TIDE_THRESHOLD := by
            rcases Nat.lt_or_ge m0 SPRING_TIDE_THRESHOLD with hlt | hge
            · exact hlt
            · exact absurd ⟨rfl, hge⟩ hsp
          have hnobreak : ¬((none : Option (Nat × Nat)).isSome = true ∧
              (if n = none ∧ m0 ≤ NEAP_TIDE_THRESHOLD then some (d0, m0)
               else n).isSome = true) := by
            intro hc
            cases hc.1
          rw [if_neg hnobreak]
          rcases ih hrest
              (if n = none ∧ m0 ≤ NEAP_TIDE_THRESHOLD then some (d0, m0) else n) with
            ⟨ihsome, ihnone⟩
          constructor
          · intro d m h
            rcases ihsome d m h with ⟨hmem, htoday, hdm2, hge, hmin⟩
            refine ⟨List.mem_cons_of_mem _ hmem, htoday, hdm2, hge, ?_⟩
            intro d2 hd2 ht2 hlt2 m2 hm2
            rcases List.mem_cons.mp hd2 with rfl | hd2r
            · rw [hdm] at hm2
              cases hm2
              exact hm0lt
            · exact hmin d2 hd2r ht2 hlt2 m2 hm2
          · intro h d hd ht m hm
            rcases List.mem_cons.mp hd with rfl | hdr
            · rw [hdm] at hm
              cases hm
              exact hm0lt
            · exact ihnone h d hdr ht m hm

theorem springNeapGo_neap_char (coeffRaw : List (Nat × List String)) (today : Nat) :
    ∀ (l : List Nat), List.Sorted (· ≤ ·) l → ∀ (s : Option (Nat × Nat)),
      (∀ d m, (springNeapGo coeffRaw today l s none).2 = some (d, m) →
        d ∈ l ∧ today ≤ d ∧ dayMaxOf coeffRaw d = some m ∧ m ≤ NEAP_TIDE_THRESHOLD ∧
        ∀ d2 ∈ l, today ≤ d2 → d2 < d → ∀ m2, dayMaxOf coeffRaw d2 = some m2 →
          NEAP_TIDE_THRESHOLD < m2)
      ∧ ((springNeapGo coeffRaw today l s none).2 = none →
        ∀ d ∈ l, today ≤ d → ∀ m, dayMaxOf coeffRaw d = some m →
          NEAP_TIDE_THRESHOLD < m) := by
  intro l
  induction l with
  | nil =>
    intro _ s
    constructor
    · intro d m h
      cases h
    · intro _ d hd
      cases hd
  | cons d0 rest ih =>
    intro hs s
    have hrest := (List.sorted_cons.mp hs).2
    have hhead := (List.sorted_cons.mp hs).1
    by_cases h1 : d0 < today
    · rw [springNeapGo_cons_lt coeffRaw today d0 rest _ _ h1]
      rcases ih hrest s with ⟨ihsome, ihnone⟩
      constructor
      · intro d m h
        rcases ihsome d m h with ⟨hmem, htoday, hdm2, hge, hmin⟩
        refine ⟨List.mem_cons_of_mem _ hmem, htoday, hdm2, hge, ?_⟩
        intro d2 hd2 ht2 hlt2 m2 hm2
        rcases List.mem_cons.mp hd2 with rfl | hd2r
        · omega
        · exact hmin d2 hd2r ht2 hlt2 m2 hm2
      · intro h d hd ht m hm
        rcases List.mem_cons.mp hd with rfl | hdr
        · omega
        · exact ihnone h d hdr ht m hm
    · cases hdm : dayMaxOf coeffRaw d0 with
      | none =>
        rw [springNeapGo_cons_skip coeffRaw today d0 rest _ _ h1 hdm]
        rcases ih hrest s with ⟨ihsome, ihnone⟩
        constructor
        · intro d m h
          rcases ihsome d m h with ⟨hmem, htoday, hdm2, hge, hmin⟩
          refine ⟨List.mem_cons_of_mem _ hmem, htoday, hdm2, hge, ?_⟩
          intro d2 hd2 ht2 hlt2 m2 hm2
          rcases List.mem_cons.mp hd2 with rfl | hd2r
          · rw [hdm] at hm2; cases hm2
          · exact hmin d2 hd2r ht2 hlt2 m2 hm2
        · intro h d hd ht m hm
          rcases List.mem_cons.mp hd with rfl | hdr
          · rw [hdm] at hm; cases hm
          · exact ihnone h d hdr ht m hm
      | some m0 =>
        rw [springNeapGo_cons_step coeffRaw today d0 rest _ _ m0 h1 hdm]
        by_cases hnp : (none : Option (Nat × Nat)) = none ∧ m0 ≤ NEAP_TIDE_THRESHOLD
        · rw [if_pos hnp]
          have hfound :
              (if (if s = none ∧ SPRING_TIDE_THRESHOLD ≤ m0 then some (d0, m0)
                   else s).isSome = true ∧
                  (some (d0, m0) : Option (Nat × Nat)).isSome = true
               then ((if s = none ∧ SPRING_TIDE_THRESHOLD ≤ m0 then some (d0, m0) else s),
                     (some (d0, m0) : Option (Nat × Nat)))
               else springNeapGo coeffRaw today rest
                     (if s = none ∧ SPRING_TIDE_THRESHOLD ≤ m0 then some (d0, m0) else s)
                     (some (d0, m0))).2
              = some (d0, m0) := by
            by_cases hb : (if s = none ∧ SPRING_TIDE_THRESHOLD ≤ m0 then some (d0, m0)
                else s).isSome = true ∧ (some (d0, m0) : Option (Nat × Nat)).isSome = true
            · rw [if_pos hb]
            · rw [if_neg hb]
              exact springNeapGo_keepNeap coeffRaw today rest _ (d0, m0)
          constructor
          · intro d m h
            rw [hfound] at h
            cases h
            refine ⟨List.mem_cons_self _ _, by omega, hdm, hnp.2, ?_⟩
            intro d2 hd2 ht2 hlt2 m2 hm2
            rcases List.mem_cons.mp hd2 with rfl | hd2r
            · omega
            · exact absurd hlt2 (Nat.not_lt.mpr (hhead d2 hd2r))
          · intro h
            rw [hfound] at h
            cases h
        · rw [if_neg hnp]
          have hm0gt : NEAP_TIDE_THRESHOLD < m0 := by
            rcases Nat.lt_or_ge NEAP_TIDE_THRESHOLD m0 with hlt | hge
            · exact hlt
            · exact absurd ⟨rfl, hge⟩ hnp
          have hnobreak : ¬((if s = none ∧ SPRING_TIDE_THRESHOLD ≤ m0 then some (d0, m0)
              else s).isSome = true ∧ (none : Option (Nat × Nat)).isSome = true) := by
            intro hc
            cases hc.2
          rw [if_neg hnobreak]
          rcases ih hrest
              (if s = none ∧ SPRING_TIDE_THRESHOLD ≤ m0 then some (d0, m0) else s) with
            ⟨ihsome, ihnone⟩
          constructor
          · intro d m h
            rcases ihsome d m h with ⟨hmem, htoday, hdm2, hge, hmin⟩
            refine ⟨List.mem_cons_of_mem _ hmem, htoday, hdm2, hge, ?_⟩
            intro d2 hd2 ht2 hlt2 m2 hm2
            rcases List.mem_cons.mp hd2 with rfl | hd2r
            · rw [hdm] at hm2
              cases hm2
              exact hm0gt
            · exact hmin d2 hd2r ht2 hlt2 m2 hm2
          · intro h d hd ht m hm
            rcases List.mem_cons.mp hd with rfl | hdr
            · rw [hdm] at hm
              cases hm
              exact hm0gt
            · exact ihnone h d hdr ht m hm

/-- C2: the spring/neap scan runs two independent first-match searches over
the coefficient dates in ascending order from today on: the first date whose
daily maximum reaches the spring threshold is reported with that maximum, and
independently the first whose maximum is at most the neap threshold; earlier
dates and days without a valid numeric coefficient never qualify, and a `none`
result means no date in range qualified. -/
theorem claim2_spring_neap_scan (coeffRaw : List (Nat × List String)) (today : Nat) :
    (∀ d m, (springNeapScan coeffRaw today).1 = some (d, m) →
       d ∈ coeffRaw.map Prod.fst ∧ today ≤ d ∧ dayMaxOf coeffRaw d = some m ∧
       SPRING_TIDE_THRESHOLD ≤ m ∧
       ∀ d2 ∈ coeffRaw.map Prod.fst, today ≤ d2 → d2 < d →
         ∀ m2, dayMaxOf coeffRaw d2 = some m2 → m2 < SPRING_TIDE_THRESHOLD)
    ∧ ((springNeapScan coeffRaw today).1 = none →
       ∀ d ∈ coeffRaw.map Prod.fst, today ≤ d →
         ∀ m, dayMaxOf coeffRaw d = some m → m < SPRING_TIDE_THRESHOLD)
    ∧ (∀ d m, (springNeapScan coeffRaw today).2 = some (d, m) →
       d ∈ coeffRaw.map Prod.fst ∧ today ≤ d ∧ dayMaxOf coeffRaw d = some m ∧
       m ≤ NEAP_TIDE_THRESHOLD ∧
       ∀ d2 ∈ coeffRaw.map Prod.fst, today ≤ d2 → d2 < d →
         ∀ m2, dayMaxOf coeffRaw d2 = some m2 → NEAP_TIDE_THRESHOLD < m2)
    ∧ ((springNeapScan coeffRaw today).2 = none →
       ∀ d ∈ coeffRaw.map Prod.fst, today ≤ d →
         ∀ m, dayMaxOf coeffRaw d = some m → NEAP_TIDE_THRESHOLD < m) := by
  have hsorted : List.Sorted (· ≤ ·) (List.insertionSort (· ≤ ·) (coeffRaw.map Prod.fst)) :=
    List.sorted_insertionSort _ _
  have hperm := List.perm_insertionSort (· ≤ ·) (coeffRaw.map Prod.fst)
  have hmem : ∀ x : Nat, x ∈ List.insertionSort (· ≤ ·) (coeffRaw.map Prod.fst) ↔
      x ∈ coeffRaw.map Prod.fst := fun x => hperm.mem_iff
  rcases springNeapGo_spring_char coeffRaw today _ hsorted none with ⟨hs1, hs2⟩
  rcases springNeapGo_neap_char coeffRaw today _ hsorted none with ⟨hn1, hn2⟩
  refine ⟨?_, ?_, ?_, ?_⟩
  · intro d m h
    rcases hs1 d m h with ⟨hmem1, ht, hdm, hge, hmin⟩
    exact ⟨(hmem d).mp hmem1, ht, hdm, hge,
      fun d2 hd2 ht2 hlt2 m2 hm2 => hmin d2 ((hmem d2).mpr hd2) ht2 hlt2 m2 hm2⟩
  · intro h d hd ht m hm
    exact hs2 h d ((hmem d).mpr hd) ht m hm
  · intro d m h
    rcases hn1 d m h with ⟨hmem1, ht, hdm, hle, hmin⟩
    exact ⟨(hmem d).mp hmem1, ht, hdm, hle,
      fun d2 hd2 ht2 hlt2 m2 hm2 => hmin d2 ((hmem d2).mpr hd2) ht2 hlt2 m2 hm2⟩
  · intro h d hd ht m hm
    exact hn2 h d ((hmem d).mpr hd) ht m hm

/-- The spec's spring/neap scenario, evaluated on the embedding: maxima 95 and
35, so no spring tide in range and the neap tide on the second day. -/
theorem springNeapScan_scenario :
    springNeapScan [(20250512, ["90", "95"]), (20250513, ["35", "30"])] 20250512
      = (none, some (20250513, 35)) := by
  decide

/-! ## Claim C3: coefficient fallback -/

/-- C3: the coefficient-filling step never overwrites an explicit coefficient,
and an event missing one receives the maximum valid numeric coefficient of its
local calendar date as a string — or stays absent exactly when the date has no
valid numeric coefficient. -/
theorem claim3_coefficient_fill (coeffRaw : List (Nat × List String)) (tides : List FlatTide) :
    (fillCoefficients coeffRaw tides).length = tides.length
    ∧ ∀ i t t2, tides.get? i = some t →
        (fillCoefficients coeffRaw tides).get? i = some t2 →
        ((∀ c, t.coefficient = some c → t2.coefficient = some c)
         ∧ (t.coefficient = none →
             ((∃ cs m, alookup coeffRaw t.dateLocal = some cs ∧ m ∈ validCoeffsInt cs ∧
                 (∀ y ∈ validCoeffsInt cs, y ≤ m) ∧ t2.coefficient = some (toString m))
              ∨ (t2.coefficient = none ∧
                 ∀ cs, alookup coeffRaw t.dateLocal = some cs → validCoeffsInt cs = [])))) := by
  constructor
  · simp [fillCoefficients]
  · intro i t t2 ht ht2
    rw [fillCoefficients, List.get?_map, ht] at ht2
    simp only [Option.map_some'] at ht2
    cases ht2
    constructor
    · intro c hc
      simp [fillCoeffOne, hc]
    · intro hc
      cases hl : alookup coeffRaw t.dateLocal with
      | none =>
        right
        constructor
        · simp [fillCoeffOne, hc, hl]
        · intro cs hcs
          cases hcs
      | some cs =>
        by_cases he : cs.isEmpty
        · right
          have hcs0 : cs = [] := List.isEmpty_iff.mp he
          constructor
          · simp [fillCoeffOne, hc, hl, he]
          · intro cs2 hcs2
            cases hcs2
            rw [hcs0]
            rfl
        · cases hdm : dayMaxCoeff cs with
          | some m =>
            left
            exact ⟨cs, m, rfl, (dayMaxCoeff_spec hdm).1, (dayMaxCoeff_spec hdm).2,
              by simp [fillCoeffOne, hc, hl, he, hdm]⟩
          | none =>
            right
            constructor
            · simp [fillCoeffOne, hc, hl, he, hdm]
            · intro cs2 hcs2
              cases hcs2
              exact dayMaxCoeff_eq_none_iff.mp hdm

/-! ## Claim C4: current height from water levels -/

theorem closestScan_spec (day nowUtc : Nat) :
    ∀ (l : List WLSample) (acc : Option (WLSample × Nat)),
    (closestScan day nowUtc l acc = none →
      acc = none ∧ ∀ s ∈ l, parseWLTime day s.time = none)
    ∧ (∀ c dc, closestScan day nowUtc l acc = some (c, dc) →
        (acc = some (c, dc) ∨
          (c ∈ l ∧ ∃ t, parseWLTime day c.time = some t ∧ dc = Nat.dist nowUtc t))
        ∧ (∀ s ∈ l, ∀ t2, parseWLTime day s.time = some t2 → dc ≤ Nat.dist nowUtc t2)
        ∧ (∀ c0 d0, acc = some (c0, d0) → dc ≤ d0)) := by
  intro l
  induction l with
  | nil =>
    intro acc
    constructor
    · intro h
      exact ⟨h, fun s hs => by cases hs⟩
    · intro c dc h
      refine ⟨Or.inl h, ?_, ?_⟩
      · intro s hs
        cases hs
      · intro c0 d0 h0
        have h2 : acc = some (c, dc) := h
        rw [h2] at h0
        cases h0
        exact Nat.le_refl _
  | cons s rest ih =>
    intro acc
    cases hp : parseWLTime day s.time with
    | none =>
      have hstep : closestScan day nowUtc (s :: rest) acc =
          closestScan day nowUtc rest acc := by
        simp only [closestScan, hp]
      rw [hstep]
      constructor
      · intro h
        rcases (ih acc).1 h with ⟨hacc, hrest⟩
        refine ⟨hacc, ?_⟩
        intro s2 hs2
        rcases List.mem_cons.mp hs2 with heq | hs2r
        · rw [heq]
          exact hp
        · exact hrest s2 hs2r
      · intro c dc h
        rcases (ih acc).2 c dc h with ⟨hprov, hmin, hbound⟩
        refine ⟨?_, ?_, hbound⟩
        · rcases hprov with hacc | ⟨hmem, ht⟩
          · exact Or.inl hacc
          · exact Or.inr ⟨List.mem_cons_of_mem _ hmem, ht⟩
        · intro s2 hs2 t2 hpt2
          rcases List.mem_cons.mp hs2 with heq | hs2r
          · rw [heq, hp] at hpt2
            cases hpt2
          · exact hmin s2 hs2r t2 hpt2
    | some t =>
      cases acc with
      | none =>
        have hstep : closestScan day nowUtc (s :: rest) none =
            closestScan day nowUtc rest (some (s, Nat.dist nowUtc t)) := by
          simp only [closestScan, hp]
        rw [hstep]
        constructor
        · intro h
          rcases (ih _).1 h with ⟨hacc, _⟩
          cases hacc
        · intro c dc h
          rcases (ih _).2 c dc h with ⟨hprov, hmin, hbound⟩
          refine ⟨?_, ?_, ?_⟩
          · rcases hprov with hacc | ⟨hmem, ht⟩
            · cases hacc
              exact Or.inr ⟨List.mem_cons_self _ _, t, hp, rfl⟩
            · exact Or.inr ⟨List.mem_cons_of_mem _ hmem, ht⟩
          · intro s2 hs2 t2 hpt2
            rcases List.mem_cons.mp hs2 with heq | hs2r
            · rw [heq, hp] at hpt2
              cases hpt2
              exact hbound s (Nat.dist nowUtc t) rfl
            · exact hmin s2 hs2r t2 hpt2
          · intro c0 d0 h0
            cases h0
      | some p =>
        rcases p with ⟨c0, d0⟩
        by_cases hd : Nat.dist nowUtc t < d0
        · have hstep : closestScan day nowUtc (s :: rest) (some (c0, d0)) =
              closestScan day nowUtc rest (some (s, Nat.dist nowUtc t)) := by
            simp only [closestScan, hp]
            rw [if_pos hd]
          rw [hstep]
          constructor
          · intro h
            rcases (ih _).1 h with ⟨hacc, _⟩
            cases hacc
          · intro c dc h
            rcases (ih _).2 c dc h with ⟨hprov, hmin, hbound⟩
            refine ⟨?_, ?_, ?_⟩
            · rcases hprov with hacc | ⟨hmem, ht⟩
              · cases hacc
                exact Or.inr ⟨List.mem_cons_self _ _, t, hp, rfl⟩
              · exact Or.inr ⟨List.mem_cons_of_mem _ hmem, ht⟩
            · intro s2 hs2 t2 hpt2
              rcases List.mem_cons.mp hs2 with heq | hs2r
              · rw [heq, hp] at hpt2
                cases hpt2
                exact hbound s (Nat.dist nowUtc t) rfl
              · exact hmin s2 hs2r t2 hpt2
            · intro c1 d1 h1
              cases h1
              exact Nat.le_trans (hbound s (Nat.dist nowUtc t) rfl) (Nat.le_of_lt hd)
        · have hstep : closestScan day nowUtc (s :: rest) (some (c0, d0)) =
              closestScan day nowUtc rest (some (c0, d0)) := by
            simp only [closestScan, hp]
            rw [if_neg hd]
          rw [hstep]
          constructor
          · intro h
            rcases (ih _).1 h with ⟨hacc, _⟩
            cases hacc
          · intro c dc h
            rcases (ih _).2 c dc h with ⟨hprov, hmin, hbound⟩
            refine ⟨?_, ?_, ?_⟩
            · rcases hprov with hacc | ⟨hmem, ht⟩
              · exact Or.inl hacc
              · exact Or.inr ⟨List.mem_cons_of_mem _ hmem, ht⟩
            · intro s2 hs2 t2 hpt2
              rcases List.mem_cons.mp hs2 with heq | hs2r
              · rw [heq, hp] at hpt2
                cases hpt2
                exact Nat.le_trans (hbound c0 d0 rfl) (Nat.le_of_not_lt hd)
              · exact hmin s2 hs2r t2 hpt2
            · intro c1 d1 h1
              cases h1
              exact hbound c0 d0 rfl

theorem closestScan_filter (day nowUtc : Nat) :
    ∀ (l : List WLSample) (acc : Option (WLSample × Nat)),
    closestScan day nowUtc l acc =
      closestScan day nowUtc (l.filter (fun s => (parseWLTime day s.time).isSome)) acc := by
  intro l
  induction l with
  | nil => intro acc; rfl
  | cons s rest ih =>
    intro acc
    cases hp : parseWLTime day s.time with
    | none =>
      have hf : (s :: rest).filter (fun s => (parseWLTime day s.time).isSome) =
          rest.filter (fun s => (parseWLTime day s.time).isSome) := by
        simp [List.filter_cons, hp]
      have hstep : closestScan day nowUtc (s :: rest) acc =
          closestScan day nowUtc rest acc := by
        simp only [closestScan, hp]
      rw [hf, hstep]
      exact ih acc
    | some t =>
      have hf : (s :: rest).filter (fun s => (parseWLTime day s.time).isSome) =
          s :: rest.filter (fun s => (parseWLTime day s.time).isSome) := by
        simp [List.filter_cons, hp]
      rw [hf]
      cases acc with
      | none =>
        have h1 : closestScan day nowUtc (s :: rest) none =
            closestScan day nowUtc rest (some (s, Nat.dist nowUtc t)) := by
          simp only [closestScan, hp]
        have h2 : closestScan day nowUtc
              (s :: rest.filter (fun s => (parseWLTime day s.time).isSome)) none =
            closestScan day nowUtc (rest.filter (fun s => (parseWLTime day s.time).isSome))
              (some (s, Nat.dist nowUtc t)) := by
          simp only [closestScan, hp]
        rw [h1, h2]
        exact ih _
      | some p =>
        rcases p with ⟨c0, d0⟩
        by_cases hd : Nat.dist nowUtc t < d0
        · have h1 : closestScan day nowUtc (s :: rest) (some (c0, d0)) =
              closestScan day nowUtc rest (some (s, Nat.dist nowUtc t)) := by
            simp only [closestScan, hp]
            rw [if_pos hd]
          have h2 : closestScan day nowUtc
                (s :: rest.filter (fun s => (parseWLTime day s.time).isSome))
                (some (c0, d0)) =
              closestScan day nowUtc (rest.filter (fun s => (parseWLTime day s.time).isSome))
                (some (s, Nat.dist nowUtc t)) := by
            simp only [closestScan, hp]
            rw [if_pos hd]
          rw [h1, h2]
          exact ih _
        · have h1 : closestScan day nowUtc (s :: rest) (some (c0, d0)) =
              closestScan day nowUtc rest (some (c0, d0)) := by
            simp only [closestScan, hp]
            rw [if_neg hd]
          have h2 : closestScan day nowUtc
                (s :: rest.filter (fun s => (parseWLTime day s.time).isSome))
                (some (c0, d0)) =
              closestScan day nowUtc (rest.filter (fun s => (parseWLTime day s.time).isSome))
                (some (c0, d0)) := by
            simp only [closestScan, hp]
            rw [if_neg hd]
          rw [h1, h2]
          exact ih _

theorem currentHeight_scan_some {samples : List WLSample} {day nowUtc : Nat} {c : WLSample}
    {mind : Nat} (hscan : closestScan day nowUtc samples none = some (c, mind)) :
    currentHeight samples day nowUtc = if mind ≤ 15 * 60 then some c.height else none := by
  unfold currentHeight
  rw [hscan]

theorem currentHeight_scan_none {samples : List WLSample} {day nowUtc : Nat}
    (hscan : closestScan day nowUtc samples none = none) :
    currentHeight samples day nowUtc = none := by
  unfold currentHeight
  rw [hscan]

/-- C4: the reported current height is the height of the parseable sample
closest to `now`, only accepted within 15 minutes; when absent, every
parseable sample is strictly farther than 15 minutes (or none parses at all);
samples whose time fails to parse are skipped without affecting the result. -/
theorem claim4_current_height (samples : List WLSample) (day nowUtc : Nat) :
    (∀ h, currentHeight samples day nowUtc = some h →
       ∃ s t, s ∈ samples ∧ parseWLTime day s.time = some t ∧ h = s.height ∧
         Nat.dist nowUtc t ≤ 15 * 60 ∧
         ∀ s2 t2, s2 ∈ samples → parseWLTime day s2.time = some t2 →
           Nat.dist nowUtc t ≤ Nat.dist nowUtc t2)
    ∧ (currentHeight samples day nowUtc = none →
       ∀ s t, s ∈ samples → parseWLTime day s.time = some t →
         15 * 60 < Nat.dist nowUtc t)
    ∧ currentHeight samples day nowUtc =
        currentHeight (samples.filter (fun s => (parseWLTime day s.time).isSome))
          day nowUtc := by
  refine ⟨?_, ?_, ?_⟩
  · intro h hh
    cases hscan : closestScan day nowUtc samples none with
    | none => rw [currentHeight_scan_none hscan] at hh; cases hh
    | some p =>
      rcases p with ⟨c, mind⟩
      rw [currentHeight_scan_some hscan] at hh
      by_cases hacc : mind ≤ 15 * 60
      · rw [if_pos hacc] at hh
        cases hh
        rcases (closestScan_spec day nowUtc samples none).2 c mind hscan with
          ⟨hprov, hmin, _⟩
        rcases hprov with hacc2 | ⟨hmem, t, hpt, hdt⟩
        · cases hacc2
        · refine ⟨c, t, hmem, hpt, rfl, ?_, ?_⟩
          · rw [← hdt]; exact hacc
          · intro s2 t2 hs2 hpt2
            rw [← hdt]
            exact hmin s2 hs2 t2 hpt2
      · rw [if_neg hacc] at hh
        cases hh
  · intro hn s t hs hpt
    cases hscan : closestScan day nowUtc samples none with
    | none =>
      rcases (closestScan_spec day nowUtc samples none).1 hscan with ⟨_, hall⟩
      rw [hall s hs] at hpt
      cases hpt
    | some p =>
      rcases p with ⟨c, mind⟩
      rw [currentHeight_scan_some hscan] at hn
      by_cases hacc : mind ≤ 15 * 60
      · rw [if_pos hacc] at hn
        cases hn
      · rcases (closestScan_spec day nowUtc samples none).2 c mind hscan with
          ⟨_, hmin, _⟩
        exact Nat.lt_of_lt_of_le (Nat.lt_of_not_le hacc) (hmin s hs t hpt)
  · unfold currentHeight
    rw [closestScan_filter day nowUtc samples none]

/-! ## Claim C5: retrying fetcher -/

theorem fetchAttempts_ok {α : Type} {outcomes : Nat → Except FetchError α} {a fuel : Nat}
    {v : α} (h : outcomes a = .ok v) :
    fetchAttempts outcomes a (fuel + 1) = ⟨some v, 1, []⟩ := by
  simp only [fetchAttempts, h]

theorem fetchAttempts_error_last {α : Type} {outcomes : Nat → Except FetchError α} {a : Nat}
    {e : FetchError} (h : outcomes a = .error e) :
    fetchAttempts outcomes a 1 = ⟨none, 1, []⟩ := by
  simp [fetchAttempts, h]

theorem fetchAttempts_error_step {α : Type} {outcomes : Nat → Except FetchError α}
    {a fuel : Nat} {e : FetchError} (h : outcomes a = .error e) (hf : fuel ≠ 0) :
    fetchAttempts outcomes a (fuel + 1) =
      ⟨(fetchAttempts outcomes (a + 1) fuel).result,
       (fetchAttempts outcomes (a + 1) fuel).attempts + 1,
       5 * 2 ^ a :: (fetchAttempts outcomes (a + 1) fuel).sleeps⟩ := by
  simp only [fetchAttempts, h, if_neg hf]

theorem range_map_pow_shift (a k : Nat) :
    5 * 2 ^ a :: (List.range k).map (fun j => 5 * 2 ^ (a + 1 + j)) =
    (List.range (k + 1)).map (fun j => 5 * 2 ^ (a + j)) := by
  rw [List.range_succ_eq_map, List.map_cons, List.map_map]
  simp only [Nat.add_zero]
  congr 1
  apply List.map_congr_left
  intro j _
  simp only [Function.comp_apply]
  have hexp : a + 1 + j = a + (j + 1) := by omega
  rw [hexp]

theorem fetchAttempts_attempts_le {α : Type} (outcomes : Nat → Except FetchError α) :
    ∀ (fuel a : Nat), (fetchAttempts outcomes a fuel).attempts ≤ fuel := by
  intro fuel
  induction fuel with
  | zero => intro a; exact Nat.le_refl 0
  | succ f ih =>
    intro a
    cases ho : outcomes a with
    | ok v =>
      rw [fetchAttempts_ok ho]
      show 1 ≤ f + 1
      omega
    | error e =>
      by_cases hf : f = 0
      · subst hf
        rw [fetchAttempts_error_last ho]
      · rw [fetchAttempts_error_step ho hf]
        show (fetchAttempts outcomes (a + 1) f).attempts + 1 ≤ f + 1
        have := ih (a + 1)
        omega

theorem fetchAttempts_all_fail {α : Type} (outcomes : Nat → Except FetchError α) :
    ∀ (fuel a : Nat), (∀ j, j < fuel → fetchOk (outcomes (a + j)) = false) →
    fetchAttempts outcomes a fuel =
      ⟨none, fuel, (List.range (fuel - 1)).map (fun j => 5 * 2 ^ (a + j))⟩ := by
  intro fuel
  induction fuel with
  | zero => intro a _; rfl
  | succ f ih =>
    intro a hall
    cases ho : outcomes a with
    | ok v =>
      have h0 := hall 0 (by omega)
      rw [Nat.add_zero, ho] at h0
      simp [fetchOk] at h0
    | error e =>
      by_cases hf : f = 0
      · subst hf
        rw [fetchAttempts_error_last ho]
        rfl
      · rw [fetchAttempts_error_step ho hf]
        rw [ih (a + 1) (fun j hj => by
          have := hall (j + 1) (by omega)
          rwa [show a + (j + 1) = a + 1 + j by omega] at this)]
        show (⟨none, f + 1, 5 * 2 ^ a ::
            (List.range (f - 1)).map (fun j => 5 * 2 ^ (a + 1 + j))⟩ : FetchTrace α) =
          ⟨none, f + 1, (List.range (f + 1 - 1)).map (fun j => 5 * 2 ^ (a + j))⟩
        have hf1 : f + 1 - 1 = (f - 1) + 1 := by omega
        rw [hf1, ← range_map_pow_shift]

theorem fetchAttempts_success {α : Type} (outcomes : Nat → Except FetchError α) :
    ∀ (k fuel a : Nat) (v : α), k < fuel → outcomes (a + k) = .ok v →
    (∀ j, j < k → fetchOk (outcomes (a + j)) = false) →
    fetchAttempts outcomes a fuel =
      ⟨some v, k + 1, (List.range k).map (fun j => 5 * 2 ^ (a + j))⟩ := by
  intro k
  induction k with
  | zero =>
    intro fuel a v hk hok _
    cases fuel with
    | zero => omega
    | succ f =>
      rw [Nat.add_zero] at hok
      rw [fetchAttempts_ok hok]
      rfl
  | succ k0 ih =>
    intro fuel a v hk hok hfail
    cases fuel with
    | zero => omega
    | succ f =>
      have h0 := hfail 0 (by omega)
      rw [Nat.add_zero] at h0
      cases ho : outcomes a with
      | ok w => rw [ho] at h0; simp [fetchOk] at h0
      | error e =>
        have hf : f ≠ 0 := by omega
        rw [fetchAttempts_error_step ho hf]
        rw [ih f (a + 1) v (by omega)
          (by rwa [show a + 1 + k0 = a + (k0 + 1) by omega])
          (fun j hj => by
            have := hfail (j + 1) (by omega)
            rwa [show a + (j + 1) = a + 1 + j by omega] at this)]
        show (⟨some v, k0 + 1 + 1, 5 * 2 ^ a ::
            (List.range k0).map (fun j => 5 * 2 ^ (a + 1 + j))⟩ : FetchTrace α) =
          ⟨some v, k0 + 1 + 1, (List.range (k0 + 1)).map (fun j => 5 * 2 ^ (a + j))⟩
        rw [← range_map_pow_shift]

theorem fetchAttempts_same {α : Type} (o1 o2 : Nat → Except FetchError α)
    (h : ∀ i, sameOutcome (o1 i) (o2 i)) :
    ∀ (fuel a : Nat), fetchAttempts o1 a fuel = fetchAttempts o2 a fuel := by
  intro fuel
  induction fuel with
  | zero => intro a; rfl
  | succ f ih =>
    intro a
    have hi := h a
    cases h1 : o1 a with
    | ok v =>
      cases h2 : o2 a with
      | ok w =>
        have hvw : v = w := by rw [h1, h2] at hi; exact hi
        subst hvw
        rw [fetchAttempts_ok h1, fetchAttempts_ok h2]
      | error e =>
        exfalso
        rw [h1, h2] at hi
        exact hi
    | error e =>
      cases h2 : o2 a with
      | ok w =>
        exfalso
        rw [h1, h2] at hi
        exact hi
      | error e2 =>
        by_cases hf : f = 0
        · subst hf
          rw [fetchAttempts_error_last h1, fetchAttempts_error_last h2]
        · rw [fetchAttempts_error_step h1 hf, fetchAttempts_error_step h2 hf, ih (a + 1)]

/-- C5: the retrying fetcher makes at most 5 attempts, always sleeps the fixed
1-second courtesy delay first, sleeps `initial_delay * 2^i` after failed
attempt `i` only when another attempt remains (five failures give exactly the
delays 1, 5, 10, 20, 40 and a `none` result instead of an exception), returns
the first success having slept only the preceding backoffs, and treats all
error classes identically. -/
theorem claim5_retry_fetcher {α : Type} (outcomes : Nat → Except FetchError α) :
    (fetchWithRetry outcomes).attempts ≤ 5
    ∧ (fetchWithRetry outcomes).sleeps.head? = some API_REQUEST_DELAY
    ∧ ((∀ i, i < 5 → fetchOk (outcomes i) = false) →
        fetchWithRetry outcomes = ⟨none, 5, [1, 5, 10, 20, 40]⟩)
    ∧ (∀ k v, k < 5 → outcomes k = .ok v → (∀ j, j < k → fetchOk (outcomes j) = false) →
        fetchWithRetry outcomes =
          ⟨some v, k + 1, API_REQUEST_DELAY :: (List.range k).map (fun j => 5 * 2 ^ j)⟩)
    ∧ (∀ outcomes2 : Nat → Except FetchError α,
        (∀ i, sameOutcome (outcomes i) (outcomes2 i)) →
        fetchWithRetry outcomes = fetchWithRetry outcomes2) := by
  refine ⟨?_, ?_, ?_, ?_, ?_⟩
  · exact fetchAttempts_attempts_le outcomes 5 0
  · rfl
  · intro hall
    have hall2 := fetchAttempts_all_fail outcomes 5 0 (fun j hj => by
      have := hall j hj
      rwa [Nat.zero_add])
    simp only [fetchWithRetry, hall2]
    rfl
  · intro k v hk hok hfail
    have hsucc := fetchAttempts_success outcomes k 5 0 v hk (by rwa [Nat.zero_add])
      (fun j hj => by have := hfail j hj; rwa [Nat.zero_add])
    simp only [fetchWithRetry, hsucc]
    show (⟨some v, k + 1, API_REQUEST_DELAY ::
        (List.range k).map (fun j => 5 * 2 ^ (0 + j))⟩ : FetchTrace α) =
      ⟨some v, k + 1, API_REQUEST_DELAY :: (List.range k).map (fun j => 5 * 2 ^ j)⟩
    have hmap : (List.range k).map (fun j => 5 * 2 ^ (0 + j)) =
        (List.range k).map (fun j => 5 * 2 ^ j) := by
      apply List.map_congr_left
      intro j _
      rw [Nat.zero_add]
    rw [hmap]
  · intro o2 hsame
    simp only [fetchWithRetry, fetchAttempts_same outcomes o2 hsame 5 0]

/-! ## Claim C6: coefficient fetch-and-store -/

theorem alookup_aset_self {κ β : Type} [DecidableEq κ] :
    ∀ (m : List (κ × β)) (k : κ) (v : β), alookup (aset m k v) k = some v := by
  intro m
  induction m with
  | nil => intro k v; simp [aset, alookup]
  | cons kv rest ih =>
    intro k v
    by_cases hk : kv.1 = k
    · simp [aset, hk, alookup]
    · simp only [aset, if_neg hk, alookup]
      exact ih k v


theorem alookup_aset_ne {κ β : Type} [DecidableEq κ] :
    ∀ (m : List (κ × β)) (k : κ) (v : β) (k2 : κ), k2 ≠ k →
      alookup (aset m k v) k2 = alookup m k2 := by
  intro m
  induction m with
  | nil =>
    intro k v k2 h
    simp only [aset, alookup]
    rw [if_neg (fun hc : k = k2 => h hc.symm)]
  | cons kv rest ih =>
    intro k v k2 h
    by_cases hk : kv.1 = k
    · simp only [aset, if_pos hk, alookup]
      have hne1 : ¬(k = k2) := fun hc => h hc.symm
      have hne2 : ¬(kv.1 = k2) := fun hc => h (by rw [← hc]; exact hk)
      rw [if_neg hne1, if_neg hne2]
    · simp only [aset, if_neg hk, alookup]
      by_cases h2 : kv.1 = k2
      · rw [if_pos h2, if_pos h2]
      · rw [if_neg h2, if_neg h2]
        exact ih k v k2 h

theorem parseDailyItems_nonempty : ∀ {items : List CoeffItem},
    wellFormedDaily (.list items) = true → (parseDailyItems items).isEmpty = false := by
  intro items h
  simp only [wellFormedDaily, Bool.and_eq_true, Bool.not_eq_true'] at h
  cases items with
  | nil => simp at h
  | cons it rest =>
    rcases h with ⟨_, hall⟩
    rw [List.all_cons, Bool.and_eq_true] at hall
    cases it with
    | str s => simp [parseDailyItems]
    | wrapped s => simp [parseDailyItems]
    | bad => cases hall.1

theorem processDays_spec {κ : Type} [DecidableEq κ] (dateOf : Nat → κ) (days : Nat)
    (hinj : ∀ i j, dateOf i = dateOf j → i = j) :
    ∀ (ds : List DailyCoeffs) (p : Nat) (c : List (κ × List String)),
      p ≤ days → (∀ d ∈ ds, wellFormedDaily d = true) →
      (processDays dateOf days ds p c).1 = min days (p + ds.length)
      ∧ (∀ k, (∀ i, p ≤ i → i < (processDays dateOf days ds p c).1 → k ≠ dateOf i) →
          alookup (processDays dateOf days ds p c).2 k = alookup c k)
      ∧ (∀ i, p ≤ i → i < (processDays dateOf days ds p c).1 →
          ∃ d, ds.get? (i - p) = some d ∧
            alookup (processDays dateOf days ds p c).2 (dateOf i) = some (parseDaily d)) := by
  intro ds
  induction ds with
  | nil =>
    intro p c hp _
    refine ⟨?_, fun k _ => rfl, ?_⟩
    · show p = min days (p + 0)
      omega
    · intro i hpi hilt
      have hip : i < p := hilt
      omega
  | cons d0 rest ih =>
    intro p c hp hwf
    have hwf0 := hwf d0 (List.mem_cons_self _ _)
    have hwfr : ∀ d ∈ rest, wellFormedDaily d = true :=
      fun d hd => hwf d (List.mem_cons_of_mem _ hd)
    by_cases hdp : days ≤ p
    · have hpd : p = days := by omega
      have hstep : processDays dateOf days (d0 :: rest) p c = (p, c) := by
        simp only [processDays, if_pos hdp]
      rw [hstep]
      refine ⟨?_, fun k _ => rfl, ?_⟩
      · show p = min days (p + (rest.length + 1))
        omega
      · intro i hpi hilt
        have hip : i < p := hilt
        omega
    · cases d0 with
      | notList => rw [wellFormedDaily] at hwf0; cases hwf0
      | list items =>
        have hne := parseDailyItems_nonempty hwf0
        have hstep : processDays dateOf days (.list items :: rest) p c =
            processDays dateOf days rest (p + 1)
              (aset c (dateOf p) (parseDailyItems items)) := by
          simp only [processDays, if_neg hdp, hne]
          rw [if_neg (by simp [hne])]
        rw [hstep]
        rcases ih (p + 1) (aset c (dateOf p) (parseDailyItems items)) (by omega) hwfr with
          ⟨hcount, hpres, hstored⟩
        have hp1 : p < (processDays dateOf days rest (p + 1)
            (aset c (dateOf p) (parseDailyItems items))).1 := by
          rw [hcount]
          omega
        refine ⟨?_, ?_, ?_⟩
        · rw [hcount]
          simp only [List.length_cons]
          omega
        · intro k hk
          rw [hpres k (fun i hi1 hi2 => hk i (by omega) hi2)]
          exact alookup_aset_ne c (dateOf p) (parseDailyItems items) k
            (hk p (Nat.le_refl p) hp1)
        · intro i hpi hilt
          rcases Nat.eq_or_lt_of_le hpi with heq | hgt
          · refine ⟨.list items, ?_, ?_⟩
            · rw [show i - p = 0 by omega]
              rfl
            · rw [hpres (dateOf i) (fun j hj1 hj2 heq2 => by
                have hij := hinj i j heq2
                omega)]
              rw [← heq, alookup_aset_self]
              rfl
          · rcases hstored i (by omega) hilt with ⟨d, hget, hlk⟩
            refine ⟨d, ?_, hlk⟩
            rw [show i - p = (i - (p + 1)) + 1 by omega]
            simpa using hget

theorem processMonths_spec {κ : Type} [DecidableEq κ] (dateOf : Nat → κ) (days : Nat)
    (hinj : ∀ i j, dateOf i = dateOf j → i = j) :
    ∀ (ms : List MonthlyCoeffs) (p : Nat) (c : List (κ × List String)),
      p ≤ days → wellFormedFetched ms = true →
      (processMonths dateOf days ms p c).1 = min days (p + totalDays ms)
      ∧ (∀ k, (∀ i, p ≤ i → i < (processMonths dateOf days ms p c).1 → k ≠ dateOf i) →
          alookup (processMonths dateOf days ms p c).2 k = alookup c k)
      ∧ (∀ i, p ≤ i → i < (processMonths dateOf days ms p c).1 →
          ∃ d, (flattenMonths ms).get? (i - p) = some d ∧
            alookup (processMonths dateOf days ms p c).2 (dateOf i) = some (parseDaily d)) := by
  intro ms
  induction ms with
  | nil =>
    intro p c hp _
    refine ⟨?_, fun k _ => rfl, ?_⟩
    · show p = min days (p + 0)
      omega
    · intro i hpi hilt
      have hip : i < p := hilt
      omega
  | cons m0 rest ih =>
    intro p c hp hwf
    cases m0 with
    | notList => simp [wellFormedFetched] at hwf
    | list ds =>
      have hwf0 : ∀ d ∈ ds, wellFormedDaily d = true := by
        simp only [wellFormedFetched, List.all_cons, Bool.and_eq_true] at hwf
        intro d hd
        exact List.all_eq_true.mp hwf.1 d hd
      have hwfr : wellFormedFetched rest = true := by
        simp only [wellFormedFetched, List.all_cons, Bool.and_eq_true] at hwf
        exact hwf.2
      rcases processDays_spec dateOf days hinj ds p c hp hwf0 with ⟨hdc, hdp, hds⟩
      have hpc1_le : (processDays dateOf days ds p c).1 ≤ days := by
        rw [hdc]; omega
      have hpc1_ge : p ≤ (processDays dateOf days ds p c).1 := by
        rw [hdc]; omega
      by_cases hbrk : days ≤ (processDays dateOf days ds p c).1
      · have hstep : processMonths dateOf days (.list ds :: rest) p c =
            processDays dateOf days ds p c := by
          simp only [processMonths, if_pos hbrk]
        rw [hstep]
        have hfull : days ≤ p + ds.length := by
          rw [hdc] at hbrk
          omega
        refine ⟨?_, hdp, ?_⟩
        · rw [hdc]
          simp only [totalDays]
          omega
        · intro i hpi hilt
          rcases hds i hpi hilt with ⟨d, hget, hlk⟩
          refine ⟨d, ?_, hlk⟩
          have hlen : i - p < ds.length := by
            rw [hdc] at hilt
            omega
          rw [flattenMonths, List.get?_append hlen]
          exact hget
      · have hpc1 : (processDays dateOf days ds p c).1 = p + ds.length := by
          rw [hdc]
          rw [hdc] at hbrk
          omega
        have hstep : processMonths dateOf days (.list ds :: rest) p c =
            processMonths dateOf days rest (processDays dateOf days ds p c).1
              (processDays dateOf days ds p c).2 := by
          simp only [processMonths, if_neg hbrk]
        rw [hstep]
        rcases ih (processDays dateOf days ds p c).1 (processDays dateOf days ds p c).2
            (by omega) hwfr with ⟨hmc, hmp, hms⟩
        have hres_ge : p + ds.length ≤ (processMonths dateOf days rest
            (processDays dateOf days ds p c).1 (processDays dateOf days ds p c).2).1 := by
          rw [hmc, hpc1]
          rw [hpc1] at hbrk
          omega
        refine ⟨?_, ?_, ?_⟩
        · rw [hmc, hpc1]
          simp only [totalDays]
          omega
        · intro k hk
          rw [hmp k (fun i hi1 hi2 => hk i (by omega) hi2)]
          exact hdp k (fun i hi1 hi2 => hk i hi1 (by omega))
        · intro i hpi hilt
          by_cases hin : i < p + ds.length
          · rcases hds i hpi (by omega) with ⟨d, hget, hlk⟩
            refine ⟨d, ?_, ?_⟩
            · have hlen : i - p < ds.length := by omega
              rw [flattenMonths, List.get?_append hlen]
              exact hget
            · rw [hmp (dateOf i) (fun j hj1 hj2 heq2 => by
                have hij := hinj i j heq2
                rw [hpc1] at hj1
                omega)]
              exact hlk
          · rcases hms i (by omega) hilt with ⟨d, hget, hlk⟩
            refine ⟨d, ?_, hlk⟩
            have hge : ds.length ≤ i - p := by omega
            rw [flattenMonths, List.get?_append_right hge]
            rw [hpc1] at hget
            rw [show i - p - ds.length = i - (p + ds.length) by omega]
            exact hget

theorem fetchAndStoreCoefficients_eq {κ : Type} [DecidableEq κ] (months : List MonthlyCoeffs)
    (cache : List (String × List (κ × List String))) (harbor : String)
    (dateOf : Nat → κ) (days : Nat) :
    fetchAndStoreCoefficients (some months) cache harbor dateOf days =
      ⟨aset cache harbor
        (processMonths dateOf days months 0 ((alookup cache harbor).getD [])).2,
       (processMonths dateOf days months 0 ((alookup cache harbor).getD [])).1,
       (decide ((processMonths dateOf days months 0 ((alookup cache harbor).getD [])).1 = days)
        || decide (0 < (processMonths dateOf days months 0 ((alookup cache harbor).getD [])).1)),
       decide ((processMonths dateOf days months 0 ((alookup cache harbor).getD [])).1 = days)⟩ := by
  simp only [fetchAndStoreCoefficients]
  by_cases h1 : (processMonths dateOf days months 0 ((alookup cache harbor).getD [])).1 = days
  · rw [if_pos h1]
    simp only [CoeffStoreResult.mk.injEq, decide_eq_true h1]
    simp
  · rw [if_neg h1]
    have hd1 : decide ((processMonths dateOf days months 0
        ((alookup cache harbor).getD [])).1 = days) = false := decide_eq_false h1
    by_cases h2 : 0 < (processMonths dateOf days months 0 ((alookup cache harbor).getD [])).1
    · rw [if_pos h2]
      simp only [CoeffStoreResult.mk.injEq, hd1, decide_eq_true h2]
      simp
    · rw [if_neg h2]
      have hd2 : decide (0 < (processMonths dateOf days months 0
          ((alookup cache harbor).getD [])).1) = false := decide_eq_false h2
      simp only [CoeffStoreResult.mk.injEq, hd1, hd2]
      simp

/-- C6: on a well-formed fetched coefficient payload, days are assigned
sequentially from the start date for exactly as many entries as requested;
the call succeeds if and only if the payload holds at least `days` entries;
the document is persisted whenever at least one day was processed (also on
the failure path, where persistence happens exactly when some day was
processed); and cache keys outside the assigned range are untouched. -/
theorem claim6_coefficient_fetch_store (months : List MonthlyCoeffs)
    (cache : List (String × List (Nat × List String))) (harbor : String)
    (start days : Nat) (hwf : wellFormedFetched months = true) :
    (fetchAndStoreCoefficients (some months) cache harbor (fun n => start + n) days).processed
      = min days (totalDays months)
    ∧ ((fetchAndStoreCoefficients (some months) cache harbor
          (fun n => start + n) days).success = true ↔ days ≤ totalDays months)
    ∧ (0 < (fetchAndStoreCoefficients (some months) cache harbor
          (fun n => start + n) days).processed →
        (fetchAndStoreCoefficients (some months) cache harbor
          (fun n => start + n) days).saved = true)
    ∧ ((fetchAndStoreCoefficients (some months) cache harbor
          (fun n => start + n) days).success = false →
        ((fetchAndStoreCoefficients (some months) cache harbor
            (fun n => start + n) days).saved = true ↔
         0 < (fetchAndStoreCoefficients (some months) cache harbor
            (fun n => start + n) days).processed))
    ∧ (∀ i, i < (fetchAndStoreCoefficients (some months) cache harbor
          (fun n => start + n) days).processed →
        ∃ d, (flattenMonths months).get? i = some d ∧
          alookup ((alookup (fetchAndStoreCoefficients (some months) cache harbor
            (fun n => start + n) days).mem harbor).getD []) (start + i)
            = some (parseDaily d))
    ∧ (∀ k, (k < start ∨ start + (fetchAndStoreCoefficients (some months) cache harbor
          (fun n => start + n) days).processed ≤ k) →
        alookup ((alookup (fetchAndStoreCoefficients (some months) cache harbor
            (fun n => start + n) days).mem harbor).getD []) k
          = alookup ((alookup cache harbor).getD []) k) := by
  have hinj : ∀ i j : Nat, start + i = start + j → i = j := fun i j h => by omega
  rcases processMonths_spec (fun n => start + n) days hinj months 0
      ((alookup cache harbor).getD []) (Nat.zero_le days) hwf with ⟨hc, hpres, hst⟩
  simp only [fetchAndStoreCoefficients_eq]
  refine ⟨?_, ?_, ?_, ?_, ?_, ?_⟩
  · rw [hc, Nat.zero_add]
  · simp only [decide_eq_true_eq]
    rw [hc, Nat.zero_add]
    omega
  · intro h
    simp only [Bool.or_eq_true, decide_eq_true_eq]
    exact Or.inr h
  · intro h
    rw [decide_eq_false_iff_not] at h
    simp only [Bool.or_eq_true, decide_eq_true_eq]
    constructor
    · intro h2
      rcases h2 with h2 | h2
      · exact absurd h2 h
      · exact h2
    · intro h2
      exact Or.inr h2
  · intro i hi
    rcases hst i (Nat.zero_le i) hi with ⟨d, hget, hlk⟩
    refine ⟨d, by simpa using hget, ?_⟩
    rw [alookup_aset_self]
    simpa using hlk
  · intro k hk
    rw [alookup_aset_self]
    show alookup (processMonths (fun n => start + n) days months 0
        ((alookup cache harbor).getD [])).2 k = alookup ((alookup cache harbor).getD []) k
    exact hpres k (fun i hi1 hi2 heq => by omega)

/-- Witness for C6 at the documented payload shape (a month holding one day
whose entries are a plain and a singly-wrapped coefficient string). -/
theorem claim6_witness :
    (fetchAndStoreCoefficients
        (some [.list [.list [.str "107", .wrapped "102"]]]) [] "PORNICHET"
        (fun n => 0 + n) 1).processed
      = min 1 (totalDays [.list [.list [.str "107", .wrapped "102"]]]) :=
  (claim6_coefficient_fetch_store [.list [.list [.str "107", .wrapped "102"]]] []
    "PORNICHET" 0 1 (by decide)).1

/-! ## Claim C7: water-level fetch-and-store validation -/

/-- Counterexample to C7 as stated over *every* water-level fetch-and-store
invocation: the duplicate helper defined in the integration setup module
caches a payload that is not even a mapping, persists the document, and
returns the payload as success, instead of discarding it. -/
theorem claim7_counterexample :
    initFetchAndStoreWaterLevel (some WLPayload.notMap)
        ([] : List (String × List (Nat × WLPayload))) "BREST" 20250512
      = ([("BREST", [(20250512, WLPayload.notMap)])], some WLPayload.notMap)
    ∧ validWLStructure WLPayload.notMap 20250512 = false := by
  constructor
  · rfl
  · rfl

/-- C7 (amended): the `api_helpers` fetch-and-store helper — the one used by
the coordinator — caches and persists a fetched payload exactly when it is a
mapping containing the requested date as a key whose value is a list; every
other payload (and a failed fetch) is discarded with a failure result and an
unchanged cache document. The duplicate helper in the setup module performs no
such validation. -/
theorem claim7_water_level_validation (fetched : Option WLPayload)
    (cache : List (String × List (Nat × WLPayload))) (harbor : String) (dateKey : Nat) :
    ((fetchAndStoreWaterLevel fetched cache harbor dateKey).saved = true ↔
      ∃ entries n, fetched = some (.map entries) ∧ alookup entries dateKey = some (.list n))
    ∧ ((fetchAndStoreWaterLevel fetched cache harbor dateKey).saved = false →
        fetchAndStoreWaterLevel fetched cache harbor dateKey = ⟨cache, none, false⟩)
    ∧ (∀ data, fetched = some data → validWLStructure data dateKey = true →
        fetchAndStoreWaterLevel fetched cache harbor dateKey =
          ⟨aset cache harbor (aset ((alookup cache harbor).getD []) dateKey data),
           some data, true⟩) := by
  cases fetched with
  | none =>
    refine ⟨?_, fun _ => rfl, ?_⟩
    · constructor
      · intro h
        cases h
      · intro h
        rcases h with ⟨entries, n, hfe, _⟩
        cases hfe
    · intro data hfe
      cases hfe
  | some data =>
    have heq : fetchAndStoreWaterLevel (some data) cache harbor dateKey =
        if validWLStructure data dateKey
        then ⟨aset cache harbor (aset ((alookup cache harbor).getD []) dateKey data),
              some data, true⟩
        else ⟨cache, none, false⟩ := rfl
    by_cases hv : validWLStructure data dateKey = true
    · rw [heq, if_pos hv]
      refine ⟨?_, ?_, ?_⟩
      · constructor
        · intro _
          cases data with
          | notMap => rw [validWLStructure] at hv; cases hv
          | map entries =>
            cases hlk : alookup entries dateKey with
            | none => rw [validWLStructure, hlk] at hv; cases hv
            | some v =>
              cases v with
              | other => rw [validWLStructure, hlk] at hv; cases hv
              | list n => exact ⟨entries, n, rfl, hlk⟩
        · intro _
          rfl
      · intro h
        cases h
      · intro data2 hfe _
        cases hfe
        rfl
    · have hv2 : validWLStructure data dateKey = false := by
        cases hb : validWLStructure data dateKey with
        | true => exact absurd hb hv
        | false => rfl
      rw [heq, if_neg hv]
      refine ⟨?_, fun _ => rfl, ?_⟩
      · constructor
        · intro h
          cases h
        · intro h
          rcases h with ⟨entries, n, hfe, hlk⟩
          cases hfe
          rw [validWLStructure, hlk] at hv2
          cases hv2
      · intro data2 hfe hvd
        cases hfe
        exact absurd hvd hv

/-! ## Claim C8: cache validate-and-repair -/

theorem alookup_aerase_self {κ β : Type} [DecidableEq κ] :
    ∀ (m : List (κ × β)) (k : κ), alookup (aerase m k) k = none := by
  intro m
  induction m with
  | nil => intro k; rfl
  | cons kv rest ih =>
    intro k
    by_cases hk : kv.1 = k
    · simp only [aerase, if_pos hk]
      exact ih k
    · simp only [aerase, if_neg hk, alookup]
      exact ih k

/-- Counterexample to C8 as stated: on a tides cache whose harbor value is not
a dict, the repair pass deletes it and re-fetches, but a successful re-fetch
whose dict payload carries a non-list per-date value is stored verbatim by the
tides helper, so the pass ends with the harbor sub-document again in an
invalid shape (neither well-shaped nor empty/absent). -/
theorem claim8_counterexample :
    (validateAndRepairCache .tides [("BREST", .hother)] "BREST"
        (fun c => fetchAndStoreTidesShape (some [(20250512, .vother)]) c "BREST")).harborCache
      = HarborVal.hdict [(20250512, CVal.vother)]
    ∧ needsRepair .tides (some (HarborVal.hdict [(20250512, CVal.vother)])) = true := by
  constructor
  · rfl
  · rfl

/-- C8 (amended): a validate-and-repair pass on an invalid harbor sub-document
always deletes the harbor entry and persists the cleaned document before
re-fetching; a failed re-fetch leaves the harbor sub-document empty, and a
successful one leaves exactly what the re-fetch stored — which is well-shaped
precisely when the fetch helper stored well-shaped data (the tides helper may
not). A valid sub-document is returned untouched. -/
theorem claim8_validate_and_repair (dtype : DataType)
    (cacheFull : List (String × HarborVal)) (harbor : String)
    (fetch : List (String × HarborVal) → List (String × HarborVal) × Bool) :
    (needsRepair dtype (alookup cacheFull harbor) = false →
      validateAndRepairCache dtype cacheFull harbor fetch =
        ⟨cacheFull, (alookup cacheFull harbor).getD (.hdict []), cacheFull, none⟩
      ∧ needsRepair dtype
          (some ((validateAndRepairCache dtype cacheFull harbor fetch).harborCache)) = false)
    ∧ (needsRepair dtype (alookup cacheFull harbor) = true →
        (validateAndRepairCache dtype cacheFull harbor fetch).cleanedSaved =
          some (aerase cacheFull harbor)
        ∧ alookup (aerase cacheFull harbor) harbor = none
        ∧ ((fetch (aerase cacheFull harbor)).2 = false →
            (validateAndRepairCache dtype cacheFull harbor fetch).harborCache = .hdict []
            ∧ (validateAndRepairCache dtype cacheFull harbor fetch).cacheFull =
                aerase cacheFull harbor)
        ∧ ((fetch (aerase cacheFull harbor)).2 = true →
            (validateAndRepairCache dtype cacheFull harbor fetch).harborCache =
              (alookup (fetch (aerase cacheFull harbor)).1 harbor).getD (.hdict [])
            ∧ (validateAndRepairCache dtype cacheFull harbor fetch).stored =
                (fetch (aerase cacheFull harbor)).1)
        ∧ ((fetch (aerase cacheFull harbor)).2 = true →
            needsRepair dtype (alookup (fetch (aerase cacheFull harbor)).1 harbor) = false →
            needsRepair dtype
              (some ((validateAndRepairCache dtype cacheFull harbor fetch).harborCache))
              = false)) := by
  constructor
  · intro hnr
    have heq : validateAndRepairCache dtype cacheFull harbor fetch =
        ⟨cacheFull, (alookup cacheFull harbor).getD (.hdict []), cacheFull, none⟩ := by
      unfold validateAndRepairCache
      rw [if_neg (by simp [hnr])]
    refine ⟨heq, ?_⟩
    rw [heq]
    show needsRepair dtype (some ((alookup cacheFull harbor).getD (.hdict []))) = false
    cases halk : alookup cacheFull harbor with
    | none =>
      rw [halk] at hnr
      exact hnr
    | some hv =>
      rw [halk] at hnr
      exact hnr
  · intro hnr
    have heq : validateAndRepairCache dtype cacheFull harbor fetch =
        (if (fetch (aerase cacheFull harbor)).2 = true
         then ⟨(fetch (aerase cacheFull harbor)).1,
               (alookup (fetch (aerase cacheFull harbor)).1 harbor).getD (.hdict []),
               (fetch (aerase cacheFull harbor)).1, some (aerase cacheFull harbor)⟩
         else ⟨aerase cacheFull harbor, .hdict [],
               (fetch (aerase cacheFull harbor)).1, some (aerase cacheFull harbor)⟩) := by
      unfold validateAndRepairCache
      rw [if_pos (by simp [hnr])]
    by_cases hok : (fetch (aerase cacheFull harbor)).2 = true
    · rw [heq, if_pos hok]
      refine ⟨rfl, alookup_aerase_self cacheFull harbor, ?_, ?_, ?_⟩
      · intro hfalse
        rw [hok] at hfalse
        cases hfalse
      · intro _
        exact ⟨rfl, rfl⟩
      · intro _ hvalid
        show needsRepair dtype
          (some ((alookup (fetch (aerase cacheFull harbor)).1 harbor).getD (.hdict []))) = false
        cases halk : alookup (fetch (aerase cacheFull harbor)).1 harbor with
        | none =>
          rw [halk] at hvalid
          exact hvalid
        | some hv =>
          rw [halk] at hvalid
          exact hvalid
    · rw [heq, if_neg hok]
      refine ⟨rfl, alookup_aerase_self cacheFull harbor, ?_, ?_, ?_⟩
      · intro _
        exact ⟨rfl, rfl⟩
      · intro htrue
        exact absurd htrue hok
      · intro htrue
        exact absurd htrue hok

/-! ## Claim C9: prefetch job retention -/

theorem Date.lt_next : ∀ d : Date, Date.Lt d d.next := by
  intro d
  unfold Date.next
  by_cases h1 : d.day < daysInMonth d.year d.month
  · rw [if_pos h1]
    exact Or.inr ⟨rfl, Or.inr ⟨rfl, Nat.lt_succ_self _⟩⟩
  · rw [if_neg h1]
    by_cases h2 : d.month < 12
    · rw [if_pos h2]
      exact Or.inr ⟨rfl, Or.inl (Nat.lt_succ_self _)⟩
    · rw [if_neg h2]
      exact Or.inl (Nat.lt_succ_self _)

theorem Date.Lt_trans {a b c : Date} (h1 : Date.Lt a b) (h2 : Date.Lt b c) :
    Date.Lt a c := by
  unfold Date.Lt at *
  omega

theorem Date.le_addDays : ∀ (n : Nat) (d : Date), addDays n d = d ∨ Date.Lt d (addDays n d) := by
  intro n
  induction n with
  | zero => intro d; exact Or.inl rfl
  | succ k ih =>
    intro d
    rcases ih d with heq | hlt
    · right
      show Date.Lt d (addDays k d).next
      rw [heq]
      exact Date.lt_next d
    · right
      exact Date.Lt_trans hlt (Date.lt_next _)

theorem Date.monthLt_of_le {a b c : Date} (h : a = b ∨ Date.Lt a b)
    (h2 : Date.MonthLt b c) : Date.MonthLt a c := by
  rcases h with rfl | h
  · exact h2
  · unfold Date.Lt at h
    unfold Date.MonthLt at *
    omega

theorem Date.not_monthLt_first (t : Date) :
    ¬ Date.MonthLt ⟨t.year, t.month, 1⟩ t := by
  unfold Date.MonthLt
  simp

theorem not_monthLt_addDays (t : Date) (n j : Nat) :
    ¬ Date.MonthLt (addDays n (addDays j ⟨t.year, t.month, 1⟩)) t := by
  intro h
  have hx : ∀ (m : Nat) (d : Date), Date.MonthLt (addDays m d) t → Date.MonthLt d t := by
    intro m d hm
    rcases Date.le_addDays m d with heq | hlt
    · rw [heq] at hm
      exact hm
    · exact Date.monthLt_of_le (Or.inr hlt) hm
  exact Date.not_monthLt_first t (hx j _ (hx n _ h))

theorem mem_aset {κ β : Type} [DecidableEq κ] :
    ∀ (m : List (κ × β)) (k : κ) (v : β) (kv : κ × β),
      kv ∈ aset m k v → kv.1 = k ∨ kv ∈ m := by
  intro m
  induction m with
  | nil =>
    intro k v kv h
    simp only [aset] at h
    rcases List.mem_singleton.mp h with rfl
    exact Or.inl rfl
  | cons kv0 rest ih =>
    intro k v kv h
    by_cases hk : kv0.1 = k
    · simp only [aset, if_pos hk] at h
      rcases List.mem_cons.mp h with heq | hmem
      · rw [heq]
        exact Or.inl rfl
      · exact Or.inr (List.mem_cons_of_mem _ hmem)
    · simp only [aset, if_neg hk] at h
      rcases List.mem_cons.mp h with heq | hmem
      · rw [heq]
        exact Or.inr (List.mem_cons_self _ _)
      · rcases ih k v kv hmem with h1 | h1
        · exact Or.inl h1
        · exact Or.inr (List.mem_cons_of_mem _ h1)

theorem mem_keys_aset {κ β : Type} [DecidableEq κ] :
    ∀ (m : List (κ × β)) (k2 : κ) (v : β) (k : κ),
      k ∈ m.map Prod.fst → k ∈ (aset m k2 v).map Prod.fst := by
  intro m
  induction m with
  | nil =>
    intro k2 v k h
    cases h
  | cons kv0 rest ih =>
    intro k2 v k h
    rcases List.mem_map.mp h with ⟨kv, hkv, hfst⟩
    rcases List.mem_cons.mp hkv with heq | hmem
    · by_cases hk : kv0.1 = k2
      · simp only [aset, if_pos hk, List.map_cons]
        rw [heq] at hfst
        rw [← hfst, hk]
        exact List.mem_cons_self _ _
      · simp only [aset, if_neg hk, List.map_cons]
        rw [heq] at hfst
        rw [← hfst]
        exact List.mem_cons_self _ _
    · by_cases hk : kv0.1 = k2
      · simp only [aset, if_pos hk, List.map_cons]
        refine List.mem_cons_of_mem _ ?_
        rw [← hfst]
        exact List.mem_map_of_mem Prod.fst hmem
      · simp only [aset, if_neg hk, List.map_cons]
        refine List.mem_cons_of_mem _ ?_
        exact ih k2 v k (by rw [← hfst]; exact List.mem_map_of_mem Prod.fst hmem)

theorem processDays_ge {κ : Type} [DecidableEq κ] (dateOf : Nat → κ) (days : Nat) :
    ∀ (ds : List DailyCoeffs) (p : Nat) (c : List (κ × List String)),
      p ≤ (processDays dateOf days ds p c).1 := by
  intro ds
  induction ds with
  | nil => intro p c; exact Nat.le_refl p
  | cons d0 rest ih =>
    intro p c
    by_cases hdp : days ≤ p
    · have hstep : processDays dateOf days (d0 :: rest) p c = (p, c) := by
        simp only [processDays, if_pos hdp]
      rw [hstep]
    · cases d0 with
      | notList =>
        have hstep : processDays dateOf days (.notList :: rest) p c =
            processDays dateOf days rest (p + 1) c := by
          simp only [processDays, if_neg hdp]
        rw [hstep]
        exact Nat.le_trans (Nat.le_succ p) (ih (p + 1) c)
      | list items =>
        by_cases hne : (parseDailyItems items).isEmpty = true
        · have hstep : processDays dateOf days (.list items :: rest) p c =
              processDays dateOf days rest (p + 1) c := by
            simp only [processDays, if_neg hdp]
            rw [if_pos hne]
          rw [hstep]
          exact Nat.le_trans (Nat.le_succ p) (ih (p + 1) c)
        · have hstep : processDays dateOf days (.list items :: rest) p c =
              processDays dateOf days rest (p + 1)
                (aset c (dateOf p) (parseDailyItems items)) := by
            simp only [processDays, if_neg hdp]
            rw [if_neg hne]
          rw [hstep]
          exact Nat.le_trans (Nat.le_succ p) (ih (p + 1) _)

theorem mem_processDays_keys {κ : Type} [DecidableEq κ] (dateOf : Nat → κ) (days : Nat) :
    ∀ (ds : List DailyCoeffs) (p : Nat) (c : List (κ × List String)) (kv : κ × List String),
      kv ∈ (processDays dateOf days ds p c).2 →
      kv ∈ c ∨ ∃ n, p ≤ n ∧ kv.1 = dateOf n := by
  intro ds
  induction ds with
  | nil => intro p c kv h; exact Or.inl h
  | cons d0 rest ih =>
    intro p c kv h
    by_cases hdp : days ≤ p
    · have hstep : processDays dateOf days (d0 :: rest) p c = (p, c) := by
        simp only [processDays, if_pos hdp]
      rw [hstep] at h
      exact Or.inl h
    · cases d0 with
      | notList =>
        have hstep : processDays dateOf days (.notList :: rest) p c =
            processDays dateOf days rest (p + 1) c := by
          simp only [processDays, if_neg hdp]
        rw [hstep] at h
        rcases ih (p + 1) c kv h with h1 | ⟨n, hn1, hn2⟩
        · exact Or.inl h1
        · exact Or.inr ⟨n, by omega, hn2⟩
      | list items =>
        by_cases hne : (parseDailyItems items).isEmpty = true
        · have hstep : processDays dateOf days (.list items :: rest) p c =
              processDays dateOf days rest (p + 1) c := by
            simp only [processDays, if_neg hdp]
            rw [if_pos hne]
          rw [hstep] at h
          rcases ih (p + 1) c kv h with h1 | ⟨n, hn1, hn2⟩
          · exact Or.inl h1
          · exact Or.inr ⟨n, by omega, hn2⟩
        · have hstep : processDays dateOf days (.list items :: rest) p c =
              processDays dateOf days rest (p + 1)
                (aset c (dateOf p) (parseDailyItems items)) := by
            simp only [processDays, if_neg hdp]
            rw [if_neg hne]
          rw [hstep] at h
          rcases ih (p + 1) _ kv h with h1 | ⟨n, hn1, hn2⟩
          · rcases mem_aset _ _ _ _ h1 with h2 | h2
            · exact Or.inr ⟨p, Nat.le_refl p, h2⟩
            · exact Or.inl h2
          · exact Or.inr ⟨n, by omega, hn2⟩

theorem mem_processMonths_keys {κ : Type} [DecidableEq κ] (dateOf : Nat → κ) (days : Nat) :
    ∀ (ms : List MonthlyCoeffs) (p : Nat) (c : List (κ × List String)) (kv : κ × List String),
      kv ∈ (processMonths dateOf days ms p c).2 →
      kv ∈ c ∨ ∃ n, p ≤ n ∧ kv.1 = dateOf n := by
  intro ms
  induction ms with
  | nil => intro p c kv h; exact Or.inl h
  | cons m0 rest ih =>
    intro p c kv h
    cases m0 with
    | notList =>
      have hstep : processMonths dateOf days (.notList :: rest) p c =
          (if days ≤ p then (p, c) else processMonths dateOf days rest p c) := by
        simp only [processMonths]
      rw [hstep] at h
      by_cases hdp : days ≤ p
      · rw [if_pos hdp] at h
        exact Or.inl h
      · rw [if_neg hdp] at h
        exact ih p c kv h
    | list ds =>
      have hstep : processMonths dateOf days (.list ds :: rest) p c =
          (if days ≤ (processDays dateOf days ds p c).1 then processDays dateOf days ds p c
           else processMonths dateOf days rest (processDays dateOf days ds p c).1
             (processDays dateOf days ds p c).2) := by
        simp only [processMonths]
      rw [hstep] at h
      by_cases hbrk : days ≤ (processDays dateOf days ds p c).1
      · rw [if_pos hbrk] at h
        exact mem_processDays_keys dateOf days ds p c kv h
      · rw [if_neg hbrk] at h
        rcases ih _ _ kv h with h1 | ⟨n, hn1, hn2⟩
        · exact mem_processDays_keys dateOf days ds p c kv h1
        · refine Or.inr ⟨n, ?_, hn2⟩
          exact Nat.le_trans (processDays_ge dateOf days ds p c) hn1

theorem pruneHarborKeys_none {β : Type} (pruneKey : DKey → Bool)
    (store0 : List (String × List (DKey × β))) (harbor : String)
    (halk : alookup store0 harbor = none) :
    pruneHarborKeys pruneKey store0 harbor = (store0, false) := by
  simp only [pruneHarborKeys, halk]

theorem pruneHarborKeys_some {β : Type} (pruneKey : DKey → Bool)
    (store0 : List (String × List (DKey × β))) (harbor : String)
    (hc : List (DKey × β)) (halk : alookup store0 harbor = some hc) :
    pruneHarborKeys pruneKey store0 harbor =
      (if (hc.filter (fun kv => !pruneKey kv.1)).isEmpty = true
       then (aerase store0 harbor, true)
       else if hc.any (fun kv => pruneKey kv.1) = true
       then (aset store0 harbor (hc.filter (fun kv => !pruneKey kv.1)), true)
       else (store0, false)) := by
  simp only [pruneHarborKeys, halk]

theorem pruneHarborKeys_spec {β : Type} (pruneKey : DKey → Bool)
    (store0 : List (String × List (DKey × β))) (harbor : String) :
    (∀ kv ∈ (alookup (pruneHarborKeys pruneKey store0 harbor).1 harbor).getD
        ([] : List (DKey × β)), pruneKey kv.1 = false)
    ∧ ((pruneHarborKeys pruneKey store0 harbor).2 = false →
        (pruneHarborKeys pruneKey store0 harbor).1 = store0) := by
  cases halk : alookup store0 harbor with
  | none =>
    rw [pruneHarborKeys_none pruneKey store0 harbor halk]
    refine ⟨?_, fun _ => rfl⟩
    intro kv hkv
    rw [halk] at hkv
    cases hkv
  | some hc =>
    rw [pruneHarborKeys_some pruneKey store0 harbor hc halk]
    by_cases hemp : (hc.filter (fun kv => !pruneKey kv.1)).isEmpty = true
    · rw [if_pos hemp]
      refine ⟨?_, ?_⟩
      · intro kv hkv
        rw [alookup_aerase_self] at hkv
        cases hkv
      · intro hfl
        cases hfl
    · rw [if_neg hemp]
      by_cases hany : hc.any (fun kv => pruneKey kv.1) = true
      · rw [if_pos hany]
        refine ⟨?_, ?_⟩
        · intro kv hkv
          rw [alookup_aset_self] at hkv
          have hmem := List.mem_filter.mp hkv
          simpa using hmem.2
        · intro hfl
          cases hfl
      · rw [if_neg hany]
        refine ⟨?_, fun _ => rfl⟩
        intro kv hkv
        rw [halk] at hkv
        simp only [Option.getD] at hkv
        have hall := List.any_eq_false.mp (by
          cases hb : hc.any (fun kv => pruneKey kv.1) with
          | true => exact absurd hb hany
          | false => rfl)
        simpa using hall kv hkv

theorem waterFold_keeps_keys (harbor : String) (payloads : Date → Option WLPayload) :
    ∀ (l : List Date) (c : List (String × List (DKey × WLPayload))) (k : DKey),
      k ∈ ((alookup c harbor).getD []).map Prod.fst →
      k ∈ ((alookup (l.foldl (fun c2 d =>
          (initFetchAndStoreWaterLevel (payloads d) c2 harbor (DKey.good d)).1) c)
        harbor).getD []).map Prod.fst := by
  intro l
  induction l with
  | nil => intro c k h; exact h
  | cons d rest ih =>
    intro c k h
    rw [List.foldl_cons]
    apply ih
    cases hp : payloads d with
    | none =>
      simp only [initFetchAndStoreWaterLevel, hp]
      exact h
    | some data =>
      simp only [initFetchAndStoreWaterLevel, hp]
      rw [alookup_aset_self]
      show k ∈ (aset ((alookup c harbor).getD []) (DKey.good d) data).map Prod.fst
      exact mem_keys_aset _ _ _ _ h

theorem coeffPrefetchJob_eq_nomissing (store0 : List (String × List (DKey × List String)))
    (harbor : String) (today : Date) (payload : Option (List MonthlyCoeffs))
    (hfm : (List.range 365).find? (fun i =>
        (alookup ((alookup (pruneHarborKeys (coeffPruneKey today) store0 harbor).1
          harbor).getD []) (DKey.good (addDays i ⟨today.year, today.month, 1⟩))).isNone)
      = none) :
    coeffPrefetchJob store0 harbor today payload =
      (if (pruneHarborKeys (coeffPruneKey today) store0 harbor).2
       then (pruneHarborKeys (coeffPruneKey today) store0 harbor).1 else store0) := by
  simp only [coeffPrefetchJob, hfm]

theorem coeffPrefetchJob_eq_missing (store0 : List (String × List (DKey × List String)))
    (harbor : String) (today : Date) (payload : Option (List MonthlyCoeffs)) (j : Nat)
    (hfm : (List.range 365).find? (fun i =>
        (alookup ((alookup (pruneHarborKeys (coeffPruneKey today) store0 harbor).1
          harbor).getD []) (DKey.good (addDays i ⟨today.year, today.month, 1⟩))).isNone)
      = some j) :
    coeffPrefetchJob store0 harbor today payload =
      (if (fetchAndStoreCoefficients payload
            (pruneHarborKeys (coeffPruneKey today) store0 harbor).1 harbor
            (fun n => DKey.good (addDays n (addDays j ⟨today.year, today.month, 1⟩)))
            (365 - j)).saved
          || (pruneHarborKeys (coeffPruneKey today) store0 harbor).2
       then (fetchAndStoreCoefficients payload
            (pruneHarborKeys (coeffPruneKey today) store0 harbor).1 harbor
            (fun n => DKey.good (addDays n (addDays j ⟨today.year, today.month, 1⟩)))
            (365 - j)).mem
       else store0) := by
  simp only [coeffPrefetchJob, hfm]

theorem coeffPrefetchJob_retention (store0 : List (String × List (DKey × List String)))
    (harbor : String) (today : Date) (payload : Option (List MonthlyCoeffs)) :
    ∀ kv ∈ (alookup (coeffPrefetchJob store0 harbor today payload) harbor).getD
        ([] : List (DKey × List String)), coeffPruneKey today kv.1 = false := by
  intro kv hkv
  rcases pruneHarborKeys_spec (coeffPruneKey today) store0 harbor with ⟨hfact, hnosave⟩
  cases hfm : (List.range 365).find? (fun i =>
      (alookup ((alookup (pruneHarborKeys (coeffPruneKey today) store0 harbor).1
        harbor).getD []) (DKey.good (addDays i ⟨today.year, today.month, 1⟩))).isNone) with
  | none =>
    rw [coeffPrefetchJob_eq_nomissing store0 harbor today payload hfm] at hkv
    cases hb : (pruneHarborKeys (coeffPruneKey today) store0 harbor).2 with
    | true =>
      rw [if_pos hb] at hkv
      exact hfact kv hkv
    | false =>
      rw [if_neg (by simp [hb])] at hkv
      rw [← hnosave hb] at hkv
      exact hfact kv hkv
  | some j =>
    rw [coeffPrefetchJob_eq_missing store0 harbor today payload j hfm] at hkv
    cases hb : ((fetchAndStoreCoefficients payload
        (pruneHarborKeys (coeffPruneKey today) store0 harbor).1 harbor
        (fun n => DKey.good (addDays n (addDays j ⟨today.year, today.month, 1⟩)))
        (365 - j)).saved
        || (pruneHarborKeys (coeffPruneKey today) store0 harbor).2) with
    | false =>
      rw [if_neg (by simp [hb])] at hkv
      have hb2 : (pruneHarborKeys (coeffPruneKey today) store0 harbor).2 = false := by
        rcases Bool.or_eq_false_iff.mp hb with ⟨_, h2⟩
        exact h2
      rw [← hnosave hb2] at hkv
      exact hfact kv hkv
    | true =>
      rw [if_pos hb] at hkv
      cases payload with
      | none =>
        have hmem : (fetchAndStoreCoefficients (none : Option (List MonthlyCoeffs))
            (pruneHarborKeys (coeffPruneKey today) store0 harbor).1 harbor
            (fun n => DKey.good (addDays n (addDays j ⟨today.year, today.month, 1⟩)))
            (365 - j)).mem = (pruneHarborKeys (coeffPruneKey today) store0 harbor).1 := rfl
        rw [hmem] at hkv
        exact hfact kv hkv
      | some months =>
        rw [fetchAndStoreCoefficients_eq] at hkv
        have hkv2 : kv ∈ (processMonths
            (fun n => DKey.good (addDays n (addDays j ⟨today.year, today.month, 1⟩)))
            (365 - j) months 0
            ((alookup (pruneHarborKeys (coeffPruneKey today) store0 harbor).1
              harbor).getD [])).2 := by
          have halk := alookup_aset_self
            (pruneHarborKeys (coeffPruneKey today) store0 harbor).1 harbor
            (processMonths
              (fun n => DKey.good (addDays n (addDays j ⟨today.year, today.month, 1⟩)))
              (365 - j) months 0
              ((alookup (pruneHarborKeys (coeffPruneKey today) store0 harbor).1
                harbor).getD [])).2
          rw [halk] at hkv
          exact hkv
        rcases mem_processMonths_keys _ _ months 0 _ kv hkv2 with h1 | ⟨n, _, hn2⟩
        · exact hfact kv h1
        · rw [hn2]
          show coeffPruneKey today
            (DKey.good (addDays n (addDays j ⟨today.year, today.month, 1⟩))) = false
          simp only [coeffPruneKey]
          exact decide_eq_false (not_monthLt_addDays today n j)

theorem tidesPrefetchJob_retention {β : Type}
    (store0 : List (String × List (DKey × β))) (harbor : String) (today : Date)
    (fetch : List (String × List (DKey × β)) → List (String × List (DKey × β)) × Bool)
    (hnf : ((Date.pred today :: (List.range 7).map (fun i => addDays i today)).any
        (fun d => (alookup ((alookup store0 harbor).getD []) (DKey.good d)).isNone)) = false) :
    ∀ kv ∈ (alookup (tidesPrefetchJob store0 harbor today fetch) harbor).getD
        ([] : List (DKey × β)), tidePruneKey (Date.pred today) kv.1 = false := by
  intro kv hkv
  rcases pruneHarborKeys_spec (tidePruneKey (Date.pred today)) store0 harbor with
    ⟨hfact, hnosave⟩
  have heq : tidesPrefetchJob store0 harbor today fetch =
      (if (pruneHarborKeys (tidePruneKey (Date.pred today)) store0 harbor).2
       then (pruneHarborKeys (tidePruneKey (Date.pred today)) store0 harbor).1
       else store0) := by
    simp only [tidesPrefetchJob, hnf, Bool.false_eq_true, if_false]
  rw [heq] at hkv
  cases hb : (pruneHarborKeys (tidePruneKey (Date.pred today)) store0 harbor).2 with
  | true =>
    rw [if_pos hb] at hkv
    exact hfact kv hkv
  | false =>
    rw [if_neg (by simp [hb])] at hkv
    rw [← hnosave hb] at hkv
    exact hfact kv hkv

/-- Counterexample to C9 as stated: the water-level prefetch job performs no
pruning, so after a run (here with all fetches failing) a cached date five
years before today is still present — outside the `>= today` retention
window. -/
theorem claim9_counterexample :
    waterPrefetchJob [("H", [(DKey.good ⟨2020, 1, 1⟩, WLPayload.notMap)])] "H"
        ⟨2025, 5, 12⟩ (fun _ => none)
      = [("H", [(DKey.good ⟨2020, 1, 1⟩, WLPayload.notMap)])]
    ∧ Date.Lt ⟨2020, 1, 1⟩ ⟨2025, 5, 12⟩ := by
  constructor
  · decide
  · decide

/-- C9 (amended): after a coefficient prefetch run every remaining date key of
the harbor's persisted cache is a parsable date not in a year/month before the
current one; after a tides prefetch run in which no fetch was triggered every
remaining key is a parsable date not before yesterday (when a fetch is
triggered the in-memory pruning is not persisted); the water-level prefetch
job never removes a key, so its retention floor is not enforced by the job. -/
theorem claim9_prefetch_retention {β : Type} (harbor : String) (today : Date) :
    (∀ (store0 : List (String × List (DKey × List String)))
        (payload : Option (List MonthlyCoeffs)),
        ∀ kv ∈ (alookup (coeffPrefetchJob store0 harbor today payload) harbor).getD
          ([] : List (DKey × List String)), coeffPruneKey today kv.1 = false)
    ∧ (∀ (store0 : List (String × List (DKey × β)))
        (fetch : List (String × List (DKey × β)) → List (String × List (DKey × β)) × Bool),
        ((Date.pred today :: (List.range 7).map (fun i => addDays i today)).any
          (fun d => (alookup ((alookup store0 harbor).getD []) (DKey.good d)).isNone))
          = false →
        ∀ kv ∈ (alookup (tidesPrefetchJob store0 harbor today fetch) harbor).getD
          ([] : List (DKey × β)), tidePruneKey (Date.pred today) kv.1 = false)
    ∧ (∀ (store0 : List (String × List (DKey × WLPayload)))
        (payloads : Date → Option WLPayload) (k : DKey),
        k ∈ ((alookup store0 harbor).getD []).map Prod.fst →
        k ∈ ((alookup (waterPrefetchJob store0 harbor today payloads) harbor).getD
          []).map Prod.fst) := by
  refine ⟨?_, ?_, ?_⟩
  · intro store0 payload kv hkv
    exact coeffPrefetchJob_retention store0 harbor today payload kv hkv
  · intro store0 fetch hnf kv hkv
    exact tidesPrefetchJob_retention store0 harbor today fetch hnf kv hkv
  · intro store0 payloads k hk
    unfold waterPrefetchJob
    exact waterFold_keeps_keys harbor payloads _ store0 k hk

/-- Witness for the amended C9 at a concrete store: the stale key survives the
water-level job run. -/
theorem claim9_witness :
    DKey.good ⟨2020, 1, 1⟩ ∈ ((alookup (waterPrefetchJob
        [("H", [(DKey.good ⟨2020, 1, 1⟩, WLPayload.notMap)])] "H" ⟨2025, 5, 12⟩
        (fun _ => none)) "H").getD []).map Prod.fst :=
  (@claim9_prefetch_retention Unit "H" ⟨2025, 5, 12⟩).2.2
    [("H", [(DKey.good ⟨2020, 1, 1⟩, WLPayload.notMap)])] (fun _ => none)
    (DKey.good ⟨2020, 1, 1⟩) (by decide)

/-! ## Claim C10: snapshot assembly shape -/

theorem mem_filterMap_pairs {κ ν : Type} (l : List (κ × Option ν)) (k : κ) (v : ν) :
    (k, v) ∈ l.filterMap (fun kv => kv.2.map (fun v2 => (kv.1, v2))) ↔ (k, some v) ∈ l := by
  rw [List.mem_filterMap]
  constructor
  · rintro ⟨⟨k2, o⟩, hmem, hf⟩
    cases o with
    | none =>
      simp only [Option.map_none'] at hf
      cases hf
    | some v2 =>
      simp only [Option.map_some'] at hf
      cases hf
      exact hmem
  · intro hmem
    exact ⟨(k, some v), hmem, rfl⟩

/-- C10: every parser result maps `last_update` to the parse timestamp; an
empty tide mapping yields exactly the `last_update`-only result; and in every
other case the result holds exactly those assembled top-level entries whose
value is present — an absent derived fact is an omitted key, never a key bound
to the Python `None`. -/
theorem claim10_snapshot_shape (tidesRaw : List (Nat × List RawTideInfo))
    (coeffRaw : List (Nat × List String)) (waterRaw : Option WaterRawData)
    (today nowUtc : Nat) :
    ("last_update", SnapVal.tsV nowUtc) ∈ parseTideData tidesRaw coeffRaw waterRaw today nowUtc
    ∧ (tidesRaw = [] →
        parseTideData tidesRaw coeffRaw waterRaw today nowUtc
          = [("last_update", SnapVal.tsV nowUtc)])
    ∧ (tidesRaw ≠ [] → ∀ k v,
        ((k, v) ∈ parseTideData tidesRaw coeffRaw waterRaw today nowUtc ↔
          (k, some v) ∈ assembleSnapshot tidesRaw coeffRaw waterRaw today nowUtc)) := by
  refine ⟨?_, ?_, ?_⟩
  · by_cases he : tidesRaw.isEmpty = true
    · simp only [parseTideData, if_pos he]
      exact List.mem_singleton.mpr rfl
    · simp only [parseTideData, if_neg he]
      rw [mem_filterMap_pairs]
      simp only [assembleSnapshot, if_neg he]
      simp
  · intro h
    have he : tidesRaw.isEmpty = true := by
      rw [h]
      rfl
    simp only [parseTideData, if_pos he]
  · intro h k v
    have he : ¬(tidesRaw.isEmpty = true) := by
      intro hc
      exact h (List.isEmpty_iff.mp hc)
    simp only [parseTideData, if_neg he]
    exact mem_filterMap_pairs _ k v
